import Mathlib

/-!
Verification of the Faraid (Islamic inheritance) calculation engine.

This file is a shallow embedding of the function `calculateFaraid(netEstate, heirs)`
of the repository (the only computational core; everything else is CRUD plumbing).
JavaScript numbers are modelled as exact rationals.  Because the
rational operations of the ambient library are marked irreducible and hence do
not reduce inside the kernel, the embedding uses kernel-computable wrappers
(`qadd`, `qsub`, `qmul`, `qdiv`, `qsum`, built on `mkRat`); the bridge lemmas
`qadd_eq`, `qsub_eq`, `qmul_eq`, `qdiv_eq`, `qsum_eq` prove them equal to the
field operations of `ℚ`, and all abstract reasoning happens on the field side.

`Math.round(x)` of JavaScript is floor(x + 1/2) (ties toward positive
infinity), modelled by `jsRound`.  `parseFloat(x.toFixed(d))` rounds to `d`
decimal digits, ties up, modelled by `roundDec`.
-/

namespace Faraid

/-! ## Kernel-computable rational arithmetic -/

def qadd (a b : ℚ) : ℚ := mkRat (a.num * b.den + b.num * a.den) (a.den * b.den)

def qsub (a b : ℚ) : ℚ := mkRat (a.num * b.den - b.num * a.den) (a.den * b.den)

def qmul (a b : ℚ) : ℚ := mkRat (a.num * b.num) (a.den * b.den)

/-- Division.  Matches the division of `ℚ` (in particular `qdiv a 0 = 0`; the
engine never divides by zero on any reachable path). -/
def qdiv (a b : ℚ) : ℚ :=
  if 0 ≤ b.num then mkRat (a.num * b.den) (a.den * b.num.toNat)
  else mkRat (-(a.num * (b.den : ℤ))) (a.den * (-b.num).toNat)

def qofNat (n : ℕ) : ℚ := mkRat n 1

def qsum : List ℚ → ℚ
  | [] => 0
  | q :: qs => qadd q (qsum qs)

/-- JavaScript `Math.round`: floor of x + 1/2 (ties toward positive infinity). -/
def jsRound (q : ℚ) : ℤ :=
  let r := qadd q (mkRat 1 2)
  r.num.fdiv r.den

/-- JavaScript `parseFloat(x.toFixed(d))` for `pow = 10 ^ d`:
round to that many decimal digits (ties up on exact values). -/
def roundDec (pow : ℕ) (q : ℚ) : ℚ := mkRat (jsRound (qmul q (mkRat pow 1))) pow

/-! ## Substring test (JavaScript `String.prototype.includes`) -/

def matchesAt : List Char → List Char → Bool
  | [], _ => true
  | _ :: _, [] => false
  | p :: ps, c :: cs => p == c && matchesAt ps cs

def occursIn (pat : List Char) : List Char → Bool
  | [] => pat.isEmpty
  | c :: cs => matchesAt pat (c :: cs) || occursIn pat cs

def strIncludes (s pat : String) : Bool := occursIn pat.data s.data

/-! ## Data model

An input heir record (source: rows of the `heirs` table; the fields the
engine reads are `id`, `name`, `relationship`, `gender`, `heir_group`; the
`portions` column is never read by `calculateFaraid` and is omitted). -/

structure Heir where
  id : ℕ
  name : String
  relationship : String
  gender : Option String := none
  heir_group : String := ""
deriving DecidableEq, Repr

/-! ## Stage 1: Normalization (source lines 43 to 67) -/

def normalizeRel (h : Heir) : String :=
  let rel := h.relationship
  let rel :=
    if rel = "Child" ∨ rel = "Children" then
      if h.heir_group = "Sons" then "Son"
      else if h.heir_group = "Daughters" then "Daughter"
      else rel
    else if rel = "Spouse" then
      if h.heir_group = "Wives" ∨ h.gender = some "Female" then "Wife"
      else if h.gender = some "Male" then "Husband"
      else rel
    else rel
  let rel := if rel = "Grandson (Son\x27s Son)" ∨ rel = "Son\x27s Son" then "Grandson" else rel
  let rel := if rel = "Son\x27s Daughter" then "Granddaughter" else rel
  let rel := if rel = "Paternal Brother" then "Consanguine Brother" else rel
  let rel := if rel = "Paternal Sister" then "Consanguine Sister" else rel
  let rel :=
    if rel = "Maternal Sibling" then
      if h.gender = some "Male" then "Uterine Brother" else "Uterine Sister"
    else rel
  let rel := if rel = "Grandfather" ∨ rel = "Paternal Grandfather" then "Grandfather" else rel
  let rel :=
    if rel = "Grandmother" ∨ rel = "Maternal Grandmother" ∨ rel = "Paternal Grandmother" then
      "Grandmother"
    else rel
  let rel := if rel = "Nephew (Sister\x27s Son)" then "Nephew (Sis)" else rel
  let rel := if rel = "Full Nephew (Brother\x27s Son)" ∨ rel = "Brother\x27s Son" then "Full Nephew" else rel
  rel

def normalizeOne (h : Heir) : Heir := { h with relationship := normalizeRel h }

def normHeirs (heirs : List Heir) : List Heir := heirs.map normalizeOne

/-! Roster-wide counting helpers (source lines 69 and 70); all of them run on
the normalized roster, exactly as the closures `count` and `exists` do. -/

def countRel (hs : List Heir) (r : String) : ℕ :=
  (hs.filter (fun h => h.relationship == r)).length

def relExists (hs : List Heir) (r : String) : Bool := decide (0 < countRel hs r)

/-! Blocker predicates (source lines 89 to 96). -/

def hasSon (hs : List Heir) : Bool := relExists hs "Son"

def hasMaleDescendant (hs : List Heir) : Bool := hasSon hs || relExists hs "Grandson"

def hasFemaleDescendant (hs : List Heir) : Bool :=
  relExists hs "Daughter" || relExists hs "Granddaughter"

def hasDescendant (hs : List Heir) : Bool := hasMaleDescendant hs || hasFemaleDescendant hs

def hasFather (hs : List Heir) : Bool := relExists hs "Father"

def hasGrandfather (hs : List Heir) : Bool := relExists hs "Grandfather"

def hasMaleAscendant (hs : List Heir) : Bool := hasFather hs || hasGrandfather hs

/-! ## Stage 2: Exclusion (Hajb), source lines 72 to 166 -/

def alwaysExcluded : List String :=
  ["Step-father", "Step-mother", "Adopted Child", "Foster Relations", "Illegitimate Child"]

def distantKindred : List String :=
  ["Maternal Grandfather", "Daughter\x27s Children", "Paternal Aunt", "Maternal Aunt",
   "Nephew (Sis)", "Niece (Sister\x27s Daughter)", "Granddaughter (Daughter\x27s Daughter)"]

def siblingRels : List String :=
  ["Full Brother", "Full Sister", "Consanguine Brother", "Consanguine Sister",
   "Uterine Brother", "Uterine Sister", "Brother", "Sister"]

/-- Whether the heir `h` is put into the `isExcluded` set by the forEach of
source lines 98 to 164; the decision reads only the relationship of `h` and
roster-wide predicates of the normalized roster `hs`. -/
def excludedB (hs : List Heir) (h : Heir) : Bool :=
  if alwaysExcluded.contains h.relationship then true
  else if distantKindred.contains h.relationship || strIncludes h.relationship "Distant" then true
  else
    (h.relationship == "Grandson" && hasSon hs)
    || (h.relationship == "Grandfather" && hasFather hs)
    || (h.relationship == "Grandmother" && relExists hs "Mother")
    || (siblingRels.contains h.relationship && (hasMaleDescendant hs || hasFather hs))
    || ((h.relationship == "Consanguine Brother" || h.relationship == "Consanguine Sister")
          && relExists hs "Full Brother")
    || ((h.relationship == "Uterine Brother" || h.relationship == "Uterine Sister")
          && (hasDescendant hs || hasMaleAscendant hs))
    || (h.relationship == "Granddaughter"
          && (hasSon hs || (decide (2 ≤ countRel hs "Daughter") && !relExists hs "Grandson")))
    || (h.relationship == "Full Nephew"
          && (hasMaleDescendant hs || hasMaleAscendant hs || relExists hs "Full Brother"))

/-- The notes the same forEach pushes for heir `h`, in source order.  The two
explicit-category branches return early; the Hajb rules can each fire
independently. -/
def heirNotes (hs : List Heir) (h : Heir) : List String :=
  if alwaysExcluded.contains h.relationship then
    [h.name ++ " (" ++ h.relationship ++ ") is excluded (No inheritance rights)."]
  else if distantKindred.contains h.relationship || strIncludes h.relationship "Distant" then
    [h.name ++ " (" ++ h.relationship ++ ") is Distant Kindred (Excluded)."]
  else
    (if h.relationship == "Grandson" && hasSon hs then [h.name ++ " excluded by Son."] else [])
    ++ (if h.relationship == "Grandfather" && hasFather hs then
          [h.name ++ " excluded by Father."] else [])
    ++ (if h.relationship == "Grandmother" && relExists hs "Mother" then
          [h.name ++ " excluded by Mother."] else [])
    ++ (if siblingRels.contains h.relationship && hasMaleDescendant hs then
          [h.name ++ " excluded by Male Descendant."]
        else if siblingRels.contains h.relationship && hasFather hs then
          [h.name ++ " excluded by Father."] else [])
    ++ (if (h.relationship == "Consanguine Brother" || h.relationship == "Consanguine Sister")
            && relExists hs "Full Brother" then [h.name ++ " excluded by Full Brother."] else [])
    ++ (if (h.relationship == "Uterine Brother" || h.relationship == "Uterine Sister")
            && (hasDescendant hs || hasMaleAscendant hs) then
          [h.name ++ " excluded by Descendant or Male Ascendant."] else [])
    ++ (if h.relationship == "Granddaughter" && hasSon hs then [h.name ++ " excluded by Son."]
        else if h.relationship == "Granddaughter"
            && (decide (2 ≤ countRel hs "Daughter") && !relExists hs "Grandson") then
          [h.name ++ " excluded by 2+ Daughters (no Blessed Son)."] else [])
    ++ (if h.relationship == "Full Nephew"
            && (hasMaleDescendant hs || hasMaleAscendant hs || relExists hs "Full Brother") then
          [h.name ++ " excluded by closer male heir."] else [])

def exclusionNotes (heirs : List Heir) : List String :=
  ((normHeirs heirs).map (heirNotes (normHeirs heirs))).flatten

/-- Source line 166: active heirs are the normalized heirs minus the excluded set. -/
def activeHeirs (heirs : List Heir) : List Heir :=
  (normHeirs heirs).filter (fun h => !excludedB (normHeirs heirs) h)

/-! ## Stage 3: Fixed shares (Furud), source lines 168 to 264 -/

/-- Count used for the Mother 1/6-versus-1/3 rule, source line 200: heirs of
the full normalized roster whose relationship label contains the substring
Brother or Sister. -/
def sibLikeCount (hs : List Heir) : ℕ :=
  (hs.filter (fun n => strIncludes n.relationship "Brother" || strIncludes n.relationship "Sister")).length

/-- Fixed share (parts out of 24, and fraction label) assigned to an active
heir by the if/else chain of source lines 174 to 264.  A pair `(0, _)` means
no entry is made in `partsMap`/`labelMap` (`setShare` runs only for positive
parts, source line 263). -/
def husbandShare (hs : List Heir) : ℚ × String :=
  if hasDescendant hs then (6, "1/4") else (12, "1/2")

def wifeShare (hs : List Heir) : ℚ × String :=
  let wCount := countRel hs "Wife"
  let totalWifeParts : ℚ := if hasDescendant hs then 3 else 6
  (qdiv totalWifeParts (qofNat wCount),
    if hasDescendant hs then (if 1 < wCount then "1/8 (Shared)" else "1/8")
    else (if 1 < wCount then "1/4 (Shared)" else "1/4"))

def fatherShare (hs : List Heir) : ℚ × String :=
  if hasMaleDescendant hs then (4, "1/6")
  else if hasFemaleDescendant hs then (4, "1/6 + Residue")
  else (0, "")

def motherShare (hs : List Heir) : ℚ × String :=
  if hasDescendant hs ∨ 2 ≤ sibLikeCount hs then (4, "1/6") else (8, "1/3")

def daughterShare (hs : List Heir) : ℚ × String :=
  if ¬hasSon hs then
    let dCount := countRel hs "Daughter"
    if dCount = 1 then (12, "1/2") else (qdiv 16 (qofNat dCount), "2/3 (Shared)")
  else (0, "")

def granddaughterShare (hs : List Heir) : ℚ × String :=
  if ¬relExists hs "Grandson" then
    if ¬relExists hs "Daughter" then
      let gdCount := countRel hs "Granddaughter"
      if gdCount = 1 then (12, "1/2") else (qdiv 16 (qofNat gdCount), "2/3 (Shared)")
    else if countRel hs "Daughter" = 1 then
      (qdiv 4 (qofNat (countRel hs "Granddaughter")), "1/6 (Complement)")
    else (0, "")
  else (0, "")

def grandfatherShare (hs : List Heir) : ℚ × String :=
  if hasMaleDescendant hs then (4, "1/6")
  else if hasFemaleDescendant hs then (4, "1/6 + Residue")
  else (0, "")

def grandmotherShare (hs : List Heir) : ℚ × String :=
  (qdiv 4 (qofNat (countRel hs "Grandmother")), "1/6 (Shared)")

/-- The branch of source lines 238 to 255 (entered by any relationship whose
label contains the substring Sister, other than Maternal Sister; in
particular a Uterine Sister enters here, not the Uterine branch below, and
receives no parts).  The three inner ifs of the source run sequentially on
mutable `parts`/`label`; `p1`/`p2` model the successive overwrites. -/
def sisterShare (hs : List Heir) (r : String) : ℚ × String :=
  let p1 : ℚ × String :=
    if r = "Full Sister" ∧ ¬relExists hs "Full Brother"
        ∧ ¬hasDescendant hs ∧ ¬hasMaleAscendant hs then
      let sCount := countRel hs "Full Sister"
      if sCount = 1 then (12, "1/2") else (qdiv 16 (qofNat sCount), "2/3 (Shared)")
    else (0, "")
  let p2 : ℚ × String :=
    if r = "Consanguine Sister" ∧ ¬relExists hs "Consanguine Brother"
        ∧ ¬relExists hs "Full Brother" ∧ ¬relExists hs "Full Sister"
        ∧ ¬hasDescendant hs ∧ ¬hasMaleAscendant hs then
      let csCount := countRel hs "Consanguine Sister"
      if csCount = 1 then (12, "1/2") else (qdiv 16 (qofNat csCount), "2/3 (Shared)")
    else p1
  if r = "Consanguine Sister" ∧ countRel hs "Full Sister" = 1
      ∧ ¬relExists hs "Full Brother" ∧ ¬relExists hs "Consanguine Brother"
      ∧ ¬hasDescendant hs ∧ ¬hasMaleAscendant hs then
    (qdiv 4 (qofNat (countRel hs "Consanguine Sister")), "1/6 (Complement)")
  else p2

def uterineShare (hs : List Heir) : ℚ × String :=
  let uCount := countRel hs "Uterine Brother" + countRel hs "Uterine Sister"
  (qdiv (if uCount = 1 then 4 else 8) (qofNat uCount),
    if uCount = 1 then "1/6" else "1/3 (Shared)")

/-- Fixed share (parts out of 24, and fraction label) assigned to an active
heir by the if/else chain of source lines 174 to 264, dispatching on the
normalized relationship; each branch body is one of the helper definitions
above.  A pair `(0, _)` means no entry is made in `partsMap`/`labelMap`
(`setShare` runs only for positive parts, source line 263). -/
def fixedShare (hs : List Heir) (h : Heir) : ℚ × String :=
  let r := h.relationship
  if r = "Husband" then husbandShare hs
  else if r = "Wife" then wifeShare hs
  else if r = "Father" then fatherShare hs
  else if r = "Mother" then motherShare hs
  else if r = "Daughter" then daughterShare hs
  else if r = "Granddaughter" then granddaughterShare hs
  else if r = "Grandfather" then grandfatherShare hs
  else if r = "Grandmother" then grandmotherShare hs
  else if strIncludes r "Sister" = true ∧ r ≠ "Maternal Sister" then sisterShare hs r
  else if r = "Uterine Brother" ∨ r = "Uterine Sister" then uterineShare hs
  else (0, "")

def fixedPartsOf (hs : List Heir) (h : Heir) : ℚ := (fixedShare hs h).1

/-! ## Stage 4: Residue (Asabah) distribution, source lines 266 to 327 -/

def totalFixedOf (heirs : List Heir) : ℚ :=
  qsum ((activeHeirs heirs).map (fixedPartsOf (normHeirs heirs)))

def residueOf (heirs : List Heir) : ℚ := qsub 24 (totalFixedOf heirs)

/-- Residuary group selection by priority, source lines 276 to 295.  The two
`find` calls of the source (Father, Grandfather) return the first match,
modelled by `take 1` of the filter; a Father or a Grandfather is never in the
excluded set on the branch that reaches them, so the group is nonempty exactly
when the source list is. -/
def residuaryGroup (heirs : List Heir) : List Heir :=
  let hs := normHeirs heirs
  let act := activeHeirs heirs
  if hasSon hs then
    act.filter (fun h => h.relationship == "Son") ++ act.filter (fun h => h.relationship == "Daughter")
  else if relExists hs "Grandson" then
    act.filter (fun h => h.relationship == "Grandson")
      ++ act.filter (fun h => h.relationship == "Granddaughter")
  else if hasFather hs then (act.filter (fun h => h.relationship == "Father")).take 1
  else if hasGrandfather hs then (act.filter (fun h => h.relationship == "Grandfather")).take 1
  else if relExists hs "Full Brother" then
    act.filter (fun h => h.relationship == "Full Brother")
      ++ act.filter (fun h => h.relationship == "Full Sister")
  else if relExists hs "Consanguine Brother" then
    act.filter (fun h => h.relationship == "Consanguine Brother")
      ++ act.filter (fun h => h.relationship == "Consanguine Sister")
  else if relExists hs "Full Nephew" then act.filter (fun h => h.relationship == "Full Nephew")
  else []

/-- Source line 302. -/
def maleTypes : List String :=
  ["Son", "Grandson", "Father", "Grandfather", "Full Brother", "Consanguine Brother",
   "Full Nephew", "Brother", "Paternal Brother", "Son\x27s Son", "Grandson (Son\x27s Son)"]

/-- Residue weight, source line 305: male 2, female 1. -/
def resWeight (h : Heir) : ℚ :=
  if maleTypes.contains h.relationship || h.gender == some "Male" then 2 else 1

def totalWeightOf (heirs : List Heir) : ℚ := qsum ((residuaryGroup heirs).map resWeight)

def distApplies (heirs : List Heir) : Bool :=
  decide (0 < residueOf heirs) && !(residuaryGroup heirs).isEmpty

def inGroup (heirs : List Heir) (h : Heir) : Bool :=
  (residuaryGroup heirs).any (fun g => g.id == h.id)

/-- Value of `partsMap` after the residue distribution of source lines
300 to 327 (0 when the heir holds no entry). -/
def partsAfterResidue (heirs : List Heir) (h : Heir) : ℚ :=
  let p := fixedPartsOf (normHeirs heirs) h
  if distApplies heirs && inGroup heirs h then
    qadd p (qmul (qdiv (resWeight h) (totalWeightOf heirs)) (residueOf heirs))
  else p

/-- Value of `labelMap` after the residue distribution (`none` when the heir
holds no entry). -/
def labelAfterResidue (heirs : List Heir) (h : Heir) : Option String :=
  let fs := fixedShare (normHeirs heirs) h
  let cur : Option String := if decide (0 < fs.1) then some fs.2 else none
  if distApplies heirs && inGroup heirs h then
    some (match cur with
      | some s => s ++ " + Residue"
      | none => "Residue")
  else cur

/-! ## Stage 5: Radd and Awl, source lines 329 to 365 -/

def finalTotalPre (heirs : List Heir) : ℚ :=
  qsum ((activeHeirs heirs).map (partsAfterResidue heirs))

def isSpouse (h : Heir) : Bool := h.relationship == "Husband" || h.relationship == "Wife"

/-- Source line 341: active non-spouse heirs holding a `partsMap` entry
(an entry exists exactly when the held parts are positive). -/
def raddHeirs (heirs : List Heir) : List Heir :=
  (activeHeirs heirs).filter (fun h => !isSpouse h && decide (0 < partsAfterResidue heirs h))

def raddApplies (heirs : List Heir) : Bool :=
  decide (finalTotalPre heirs < 24) && decide (0 < residueOf heirs)
    && !(raddHeirs heirs).isEmpty

def raddBase (heirs : List Heir) : ℚ := qsum ((raddHeirs heirs).map (partsAfterResidue heirs))

def surplusOf (heirs : List Heir) : ℚ := qsub 24 (finalTotalPre heirs)

def inRadd (heirs : List Heir) (h : Heir) : Bool :=
  (raddHeirs heirs).any (fun g => g.id == h.id)

/-- Final value of `partsMap` after the Radd boost of source lines 358 to 361. -/
def finalParts (heirs : List Heir) (h : Heir) : ℚ :=
  let p := partsAfterResidue heirs h
  if raddApplies heirs && inRadd heirs h then
    qadd p (qmul (qdiv p (raddBase heirs)) (surplusOf heirs))
  else p

def caseTagOf (heirs : List Heir) : String :=
  if decide (24 < finalTotalPre heirs) then "Awl"
  else if raddApplies heirs then "Radd"
  else "Standard"

/-- The `finalTotal` variable at source line 398 (set to 24 by the Radd branch). -/
def finalTotalOf (heirs : List Heir) : ℚ :=
  if raddApplies heirs then 24 else finalTotalPre heirs

/-- Source lines 336 and 368. -/
def baseNumberOf (heirs : List Heir) : ℚ :=
  if caseTagOf heirs == "Awl" then finalTotalOf heirs else 24

/-- `results.residueParts`, source lines 324, 326 and 363. -/
def residuePartsOf (heirs : List Heir) : ℚ :=
  if raddApplies heirs then 0
  else if distApplies heirs then 0
  else if decide (0 < residueOf heirs) then residueOf heirs else 0

def caseNotes (heirs : List Heir) : List String :=
  if decide (24 < finalTotalPre heirs) then
    ["Awl Case: Total shares (" ++ toString (finalTotalPre heirs)
      ++ "/24) exceed estate. Shares reduced proportionally."]
  else if raddApplies heirs then
    ["Radd Case: Surplus (" ++ toString (qsub 24 (finalTotalPre heirs))
      ++ "/24) returned to blood heirs."]
  else []

def notesOf (heirs : List Heir) : List String := exclusionNotes heirs ++ caseNotes heirs

/-! ## Stage 6: Output assembly, source lines 367 to 400 -/

structure ShareResult where
  heir : Heir
  fraction : String
  parts : ℚ
  sharePercentage : ℚ
  shareAmount : ℤ
deriving DecidableEq, Repr

def mkShare (netEstate : ℚ) (heirs : List Heir) (h : Heir) : ShareResult :=
  let parts := finalParts heirs h
  let base := baseNumberOf heirs
  { heir := h
    fraction := (labelAfterResidue heirs h).getD "Excluded"
    parts := roundDec 1000 parts
    sharePercentage := roundDec 100 (qmul (qdiv parts base) 100)
    shareAmount := jsRound (qmul (qdiv parts base) netEstate) }

structure GroupAgg where
  count : ℕ
  totalShare : ℚ
  fraction : String
  partsPerHeir : ℚ
deriving DecidableEq, Repr

def bumpGroup (key : String) (amt : ℚ) (fr : String) (pp : ℚ) :
    List (String × GroupAgg) → List (String × GroupAgg)
  | [] => [(key, ⟨1, amt, fr, pp⟩)]
  | (k, g) :: rest =>
    if k == key then (k, { g with count := g.count + 1, totalShare := qadd g.totalShare amt }) :: rest
    else (k, g) :: bumpGroup key amt fr pp rest

def groupSummaryOf (netEstate : ℚ) (heirs : List Heir) : List (String × GroupAgg) :=
  (activeHeirs heirs).foldl
    (fun acc h =>
      let parts := finalParts heirs h
      let amt := qmul (qdiv parts (baseNumberOf heirs)) netEstate
      bumpGroup h.heir_group amt ((labelAfterResidue heirs h).getD "N/A")
        (roundDec 1000 parts) acc)
    []

structure CalculationResult where
  heirs : List ShareResult
  baseNumber : ℚ
  totalFixedParts : ℚ
  residueParts : ℚ
  notes : List String
  caseTag : String
  netEstate : ℚ
  groupSummary : List (String × GroupAgg)
  perPortion : Option ℚ
deriving DecidableEq, Repr

/-- The full engine, source lines 28 to 401.  A missing roster and an empty
roster both take the early return of source line 40 (modelled by the empty
list); `perPortion` is absent (`none`) in that case. -/
def calculateFaraid (netEstate : ℚ) (heirs : List Heir) : CalculationResult :=
  if heirs.isEmpty then
    { heirs := []
      baseNumber := 24
      totalFixedParts := 0
      residueParts := 0
      notes := []
      caseTag := "Standard"
      netEstate := netEstate
      groupSummary := []
      perPortion := none }
  else
    { heirs := (activeHeirs heirs).map (mkShare netEstate heirs)
      baseNumber := baseNumberOf heirs
      totalFixedParts := finalTotalOf heirs
      residueParts := residuePartsOf heirs
      notes := notesOf heirs
      caseTag := caseTagOf heirs
      netEstate := netEstate
      groupSummary := groupSummaryOf netEstate heirs
      perPortion := some (qdiv netEstate (baseNumberOf heirs)) }

/-! ## Concrete rosters used by the claim witnesses and counterexamples -/

def hHusband : Heir := { id := 1, name := "H", relationship := "Husband", heir_group := "Spouses" }

def hDaughter : Heir := { id := 2, name := "D", relationship := "Daughter", heir_group := "Daughters" }

def hSon : Heir := { id := 1, name := "S", relationship := "Son", heir_group := "Sons" }

def rosterHusbandOnly : List Heir := [hHusband]

def rosterHD : List Heir := [hHusband, hDaughter]

def rosterSonOnly : List Heir := [hSon]

def hFullSister1 : Heir := { id := 2, name := "FS1", relationship := "Full Sister", heir_group := "Sisters" }

def hFullSister2 : Heir := { id := 3, name := "FS2", relationship := "Full Sister", heir_group := "Sisters" }

def rosterAwl : List Heir := [hHusband, hFullSister1, hFullSister2]

def hWife1 : Heir := { id := 1, name := "W1", relationship := "Wife", heir_group := "Wives" }

def hWife2 : Heir := { id := 2, name := "W2", relationship := "Wife", heir_group := "Wives" }

def hSon9 : Heir := { id := 3, name := "S", relationship := "Son", heir_group := "Sons" }

def hFather : Heir := { id := 4, name := "F", relationship := "Father", heir_group := "Parents" }

def rosterC9 : List Heir := [hWife1, hWife2, hSon9, hFather]

def hMother : Heir := { id := 1, name := "M", relationship := "Mother", heir_group := "Parents" }

def hNiece1 : Heir :=
  { id := 2, name := "N1", relationship := "Niece (Sister\x27s Daughter)", heir_group := "Nieces" }

def hNiece2 : Heir :=
  { id := 3, name := "N2", relationship := "Niece (Sister\x27s Daughter)", heir_group := "Nieces" }

def rosterMotherOnly : List Heir := [hMother]

def rosterMotherNieces : List Heir := [hMother, hNiece1, hNiece2]

/-- The canonical sibling categories named by the claim (spec side, for the
counterexample): Full, Consanguine, or Uterine sibling of either gender. -/
def specSiblingRels : List String :=
  ["Full Brother", "Full Sister", "Consanguine Brother", "Consanguine Sister",
   "Uterine Brother", "Uterine Sister"]

/-- Number of canonical siblings in a roster (spec side, for the
counterexample). -/
def specSiblingCount (hs : List Heir) : ℕ :=
  (hs.filter (fun h => specSiblingRels.contains h.relationship)).length

def hGrandsonCex : Heir :=
  { id := 2, name := "GS", relationship := "Grandson", heir_group := "Grandsons" }

def rosterSonGrandson : List Heir := [hSon, hGrandsonCex]

/-- Every relationship string that any stage of the engine matches exactly
(spec side, delimiting "unmappable" labels for claim C4). -/
def handledRels : List String :=
  ["Husband", "Wife", "Father", "Mother", "Son", "Daughter", "Grandson", "Granddaughter",
   "Grandfather", "Grandmother", "Full Brother", "Full Sister", "Consanguine Brother",
   "Consanguine Sister", "Uterine Brother", "Uterine Sister", "Full Nephew",
   "Brother", "Sister", "Maternal Sister"] ++ alwaysExcluded ++ distantKindred

/-- A normalized relationship label the engine cannot classify: not one of the
exactly-matched labels, and free of the substrings the engine tests for. -/
def unhandledRel (r : String) : Bool :=
  !(handledRels.contains r) && !(strIncludes r "Distant")
    && !(strIncludes r "Brother") && !(strIncludes r "Sister")

def hCousin : Heir := { id := 1, name := "C", relationship := "Cousin", heir_group := "Others" }

def rosterCousin : List Heir := [hCousin]

def hGrandson10 : Heir :=
  { id := 1, name := "GS", relationship := "Grandson", heir_group := "Grandsons" }

def hGdMale : Heir :=
  { id := 2, name := "GD", relationship := "Granddaughter", gender := some "Male",
    heir_group := "Granddaughters" }

def hGdFem : Heir :=
  { id := 2, name := "GD", relationship := "Granddaughter", heir_group := "Granddaughters" }

def rosterC10cex : List Heir := [hGrandson10, hGdMale]

def rosterC10w : List Heir := [hGrandson10, hGdFem]

/-! ## Theorems -/


theorem qofNat_eq (n : ℕ) : qofNat n = (n : ℚ) := by
  rw [qofNat, Rat.mkRat_eq_div]; simp

theorem qadd_eq (a b : ℚ) : qadd a b = a + b := by
  rw [qadd, Rat.mkRat_eq_div]
  have ha : ((a.den : ℚ)) ≠ 0 := by exact_mod_cast a.den_nz
  have hb : ((b.den : ℚ)) ≠ 0 := by exact_mod_cast b.den_nz
  conv_rhs => rw [← Rat.num_div_den a, ← Rat.num_div_den b]
  push_cast
  field_simp

theorem qsub_eq (a b : ℚ) : qsub a b = a - b := by
  rw [qsub, Rat.mkRat_eq_div]
  have ha : ((a.den : ℚ)) ≠ 0 := by exact_mod_cast a.den_nz
  have hb : ((b.den : ℚ)) ≠ 0 := by exact_mod_cast b.den_nz
  conv_rhs => rw [← Rat.num_div_den a, ← Rat.num_div_den b]
  push_cast
  field_simp
  ring

theorem qmul_eq (a b : ℚ) : qmul a b = a * b := by
  rw [qmul, Rat.mkRat_eq_div]
  have ha : ((a.den : ℚ)) ≠ 0 := by exact_mod_cast a.den_nz
  have hb : ((b.den : ℚ)) ≠ 0 := by exact_mod_cast b.den_nz
  conv_rhs => rw [← Rat.num_div_den a, ← Rat.num_div_den b]
  push_cast
  field_simp

theorem qdiv_eq (a b : ℚ) : qdiv a b = a / b := by
  have ha : ((a.den : ℚ)) ≠ 0 := by exact_mod_cast a.den_nz
  have hb : ((b.den : ℚ)) ≠ 0 := by exact_mod_cast b.den_nz
  rcases lt_trichotomy b.num 0 with hneg | hzero | hpos
  · rw [qdiv, if_neg (by omega), Rat.mkRat_eq_div]
    have htnq : (((-b.num).toNat : ℕ) : ℚ) = -(b.num : ℚ) := by
      have h := Int.toNat_of_nonneg (a := -b.num) (by omega)
      exact_mod_cast h
    have hbn : ((b.num : ℚ)) ≠ 0 := by exact_mod_cast hneg.ne
    push_cast
    rw [htnq]
    conv_rhs => rw [← Rat.num_div_den a, ← Rat.num_div_den b]
    field_simp
  · have hb0 : b = 0 := Rat.num_eq_zero.mp hzero
    rw [qdiv, hb0]
    simp [Rat.mkRat_eq_div]
  · rw [qdiv, if_pos hpos.le, Rat.mkRat_eq_div]
    have htnq : (((b.num).toNat : ℕ) : ℚ) = (b.num : ℚ) := by
      have h := Int.toNat_of_nonneg hpos.le
      exact_mod_cast h
    have hbn : ((b.num : ℚ)) ≠ 0 := by exact_mod_cast hpos.ne'
    push_cast
    rw [htnq]
    conv_rhs => rw [← Rat.num_div_den a, ← Rat.num_div_den b]
    field_simp

theorem qsum_eq (l : List ℚ) : qsum l = l.sum := by
  induction l with
  | nil => rfl
  | cons q qs ih => rw [qsum, qadd_eq, ih, List.sum_cons]

/-! ## General list lemmas -/

theorem sum_map_zero_q {α : Type} (l : List α) : (l.map (fun _ => (0 : ℚ))).sum = 0 := by
  induction l with
  | nil => rfl
  | cons a l ih => simp [ih]

theorem sum_map_add_q {α : Type} (l : List α) (f g : α → ℚ) :
    (l.map (fun a => f a + g a)).sum = (l.map f).sum + (l.map g).sum := by
  induction l with
  | nil => simp
  | cons a l ih => simp [ih]; ring

theorem sum_if_or_q {α : Type} (l : List α) (p q : α → Bool) (f : α → ℚ)
    (hdisj : ∀ a ∈ l, ¬(p a = true ∧ q a = true)) :
    (l.map (fun a => if p a || q a then f a else 0)).sum
      = (l.map (fun a => if p a then f a else 0)).sum
        + (l.map (fun a => if q a then f a else 0)).sum := by
  induction l with
  | nil => simp
  | cons a l ih =>
    have hd : ¬(p a = true ∧ q a = true) := hdisj a (List.mem_cons_self a l)
    have ih2 := ih (fun x hx => hdisj x (List.mem_cons_of_mem a hx))
    simp only [List.map_cons, List.sum_cons, ih2]
    cases hp : p a <;> cases hq : q a <;> simp [hp, hq] at hd ⊢ <;> ring

theorem sum_if_filter_q {α : Type} (l : List α) (p : α → Bool) (f : α → ℚ) :
    (l.map (fun a => if p a then f a else 0)).sum = ((l.filter p).map f).sum := by
  induction l with
  | nil => rfl
  | cons a l ih =>
    cases hp : p a <;> simp [List.filter_cons, hp, ih]

theorem idInjOn (l : List Heir) (hnd : (l.map Heir.id).Nodup) :
    ∀ a ∈ l, ∀ b ∈ l, a.id = b.id → a = b := by
  induction l with
  | nil => intro a ha; exact absurd ha (List.not_mem_nil a)
  | cons c l ih =>
    simp only [List.map_cons, List.nodup_cons] at hnd
    intro a ha b hb hab
    rcases List.mem_cons.mp ha with rfl | ha' <;> rcases List.mem_cons.mp hb with rfl | hb'
    · rfl
    · exact absurd (hab ▸ List.mem_map_of_mem Heir.id hb') hnd.1
    · exact absurd (hab ▸ List.mem_map_of_mem Heir.id ha') hnd.1
    · exact ih hnd.2 a ha' b hb' hab

theorem sum_single_id (l : List Heir) (hnd : (l.map Heir.id).Nodup)
    (g : Heir) (hg : g ∈ l) (f : Heir → ℚ) :
    (l.map (fun h => if g.id == h.id then f h else 0)).sum = f g := by
  induction l with
  | nil => exact absurd hg (List.not_mem_nil g)
  | cons a l ih =>
    simp only [List.map_cons, List.nodup_cons] at hnd
    rcases List.mem_cons.mp hg with rfl | hg'
    · have hz : (l.map (fun h => if g.id == h.id then f h else 0)).sum = 0 := by
        apply List.sum_eq_zero
        intro x hx
        rcases List.mem_map.mp hx with ⟨h, hh, rfl⟩
        cases hb : (g.id == h.id)
        · simp
        · exact absurd (by rw [eq_of_beq hb]; exact List.mem_map_of_mem Heir.id hh) hnd.1
      simp only [List.map_cons, List.sum_cons, beq_self_eq_true, if_true, hz, add_zero]
    · have hga : (g.id == a.id) = false := by
        cases hb : (g.id == a.id)
        · rfl
        · exact absurd (by rw [← eq_of_beq hb]; exact List.mem_map_of_mem Heir.id hg') hnd.1
      simp only [List.map_cons, List.sum_cons, hga, Bool.false_eq_true, if_false, zero_add]
      exact ih hnd.2 hg'

theorem sum_indicator (l : List Heir) (hnd : (l.map Heir.id).Nodup) :
    ∀ (s : List Heir), (∀ x ∈ s, x ∈ l) → (s.map Heir.id).Nodup → ∀ (f : Heir → ℚ),
    (l.map (fun h => if s.any (fun g => g.id == h.id) then f h else 0)).sum = (s.map f).sum := by
  intro s
  induction s with
  | nil =>
    intro _ _ f
    simp
  | cons g s ih =>
    intro hsub hs f
    simp only [List.map_cons, List.nodup_cons] at hs
    have hsplit : (l.map (fun h => if (g :: s).any (fun x => x.id == h.id) then f h else 0)).sum
        = (l.map (fun h => if g.id == h.id then f h else 0)).sum
          + (l.map (fun h => if s.any (fun x => x.id == h.id) then f h else 0)).sum := by
      have := sum_if_or_q l (fun h => g.id == h.id) (fun h => s.any (fun x => x.id == h.id)) f ?_
      · simpa [List.any_cons] using this
      · intro a _ hcontra
        obtain ⟨h1, h2⟩ := hcontra
        have hga : g.id = a.id := eq_of_beq h1
        rcases List.any_eq_true.mp h2 with ⟨x, hx, hxa⟩
        have hxa' : x.id = a.id := eq_of_beq hxa
        apply hs.1
        rw [hga, ← hxa']
        exact List.mem_map_of_mem Heir.id hx
    rw [hsplit, sum_single_id l hnd g (hsub g (List.mem_cons_self g s)) f,
      ih (fun x hx => hsub x (List.mem_cons_of_mem g hx)) hs.2 f]
    simp

theorem any_id_filter (l : List Heir) (hnd : (l.map Heir.id).Nodup)
    (p : Heir → Bool) (h : Heir) (hl : h ∈ l) :
    ((l.filter p).any (fun g => g.id == h.id)) = p h := by
  cases hp : p h
  · apply List.any_eq_false.mpr
    intro g hg
    rcases List.mem_filter.mp hg with ⟨hgl, hgp⟩
    cases hb : (g.id == h.id)
    · simp
    · have hedge : g = h := idInjOn l hnd g hgl h hl (eq_of_beq hb)
      rw [hedge] at hgp
      rw [hp] at hgp
      exact Bool.noConfusion hgp
  · apply List.any_eq_true.mpr
    exact ⟨h, List.mem_filter.mpr ⟨hl, hp⟩, beq_self_eq_true h.id⟩

theorem filter_map_comm {α β : Type} (l : List α) (f : α → β) (p : β → Bool) :
    (l.map f).filter p = (l.filter (fun a => p (f a))).map f := by
  induction l with
  | nil => rfl
  | cons a l ih =>
    cases hp : p (f a) <;> simp [List.filter_cons, hp, ih]

theorem filter_id_single (l : List Heir) (hnd : (l.map Heir.id).Nodup)
    (h : Heir) (hl : h ∈ l) :
    l.filter (fun x => x.id == h.id) = [h] := by
  induction l with
  | nil => exact absurd hl (List.not_mem_nil h)
  | cons a l ih =>
    simp only [List.map_cons, List.nodup_cons] at hnd
    rcases List.mem_cons.mp hl with rfl | hl'
    · have hnil : l.filter (fun x => x.id == h.id) = [] := by
        apply List.filter_eq_nil_iff.mpr
        intro x hx
        cases hb : (x.id == h.id)
        · simp
        · exact absurd (by rw [← eq_of_beq hb]; exact List.mem_map_of_mem Heir.id hx) hnd.1
      simp [List.filter_cons, hnil]
    · have hah : (a.id == h.id) = false := by
        cases hb : (a.id == h.id)
        · rfl
        · exact absurd (by rw [eq_of_beq hb]; exact List.mem_map_of_mem Heir.id hl') hnd.1
      simp [List.filter_cons, hah, ih hnd.2 hl']

theorem sum_map_nonneg_q {α : Type} (l : List α) (f : α → ℚ)
    (hf : ∀ x ∈ l, 0 ≤ f x) : 0 ≤ (l.map f).sum := by
  apply List.sum_nonneg
  intro x hx
  rcases List.mem_map.mp hx with ⟨a, ha, rfl⟩
  exact hf a ha

theorem sum_map_pos_q {α : Type} (l : List α) (f : α → ℚ)
    (hne : l ≠ []) (hf : ∀ x ∈ l, 0 < f x) : 0 < (l.map f).sum := by
  cases l with
  | nil => exact absurd rfl hne
  | cons a l =>
    simp only [List.map_cons, List.sum_cons]
    have h1 : 0 < f a := hf a (List.mem_cons_self a l)
    have h2 : 0 ≤ (l.map f).sum :=
      sum_map_nonneg_q l f (fun x hx => (hf x (List.mem_cons_of_mem a hx)).le)
    linarith

/-! ## Structural facts about the pipeline -/

theorem normalizeOne_id (h : Heir) : (normalizeOne h).id = h.id := by
  dsimp only [normalizeOne]

theorem normHeirs_ids (heirs : List Heir) :
    (normHeirs heirs).map Heir.id = heirs.map Heir.id := by
  rw [normHeirs, List.map_map]
  exact List.map_congr_left (fun a _ => normalizeOne_id a)

theorem norm_ids_nodup {heirs : List Heir} (hnd : (heirs.map Heir.id).Nodup) :
    ((normHeirs heirs).map Heir.id).Nodup := by
  rw [normHeirs_ids]; exact hnd

theorem activeHeirs_sublist (heirs : List Heir) :
    (activeHeirs heirs).Sublist (normHeirs heirs) := List.filter_sublist _

theorem act_ids_nodup {heirs : List Heir} (hnd : (heirs.map Heir.id).Nodup) :
    ((activeHeirs heirs).map Heir.id).Nodup :=
  ((activeHeirs_sublist heirs).map Heir.id).nodup (norm_ids_nodup hnd)

theorem mem_act_iff {heirs : List Heir} {h : Heir} :
    h ∈ activeHeirs heirs
      ↔ h ∈ normHeirs heirs ∧ excludedB (normHeirs heirs) h = false := by
  simp [activeHeirs, List.mem_filter]

theorem group_subset {heirs : List Heir} : ∀ g ∈ residuaryGroup heirs, g ∈ activeHeirs heirs := by
  intro g hg
  simp only [residuaryGroup] at hg
  split_ifs at hg
  · rcases List.mem_append.mp hg with h | h <;> exact (List.mem_filter.mp h).1
  · rcases List.mem_append.mp hg with h | h <;> exact (List.mem_filter.mp h).1
  · exact (List.mem_filter.mp ((List.take_sublist 1 _).subset hg)).1
  · exact (List.mem_filter.mp ((List.take_sublist 1 _).subset hg)).1
  · rcases List.mem_append.mp hg with h | h <;> exact (List.mem_filter.mp h).1
  · rcases List.mem_append.mp hg with h | h <;> exact (List.mem_filter.mp h).1
  · exact (List.mem_filter.mp hg).1
  · exact absurd hg (List.not_mem_nil g)

theorem group_rels {heirs : List Heir} :
    ∀ g ∈ residuaryGroup heirs,
      g.relationship ∈ (["Son", "Daughter", "Grandson", "Granddaughter", "Father",
        "Grandfather", "Full Brother", "Full Sister", "Consanguine Brother",
        "Consanguine Sister", "Full Nephew"] : List String) := by
  intro g hg
  simp only [residuaryGroup] at hg
  split_ifs at hg
  · rcases List.mem_append.mp hg with h | h <;>
      (rw [eq_of_beq (List.mem_filter.mp h).2]; decide)
  · rcases List.mem_append.mp hg with h | h <;>
      (rw [eq_of_beq (List.mem_filter.mp h).2]; decide)
  · rw [eq_of_beq (List.mem_filter.mp ((List.take_sublist 1 _).subset hg)).2]; decide
  · rw [eq_of_beq (List.mem_filter.mp ((List.take_sublist 1 _).subset hg)).2]; decide
  · rcases List.mem_append.mp hg with h | h <;>
      (rw [eq_of_beq (List.mem_filter.mp h).2]; decide)
  · rcases List.mem_append.mp hg with h | h <;>
      (rw [eq_of_beq (List.mem_filter.mp h).2]; decide)
  · rw [eq_of_beq (List.mem_filter.mp hg).2]; decide
  · exact absurd hg (List.not_mem_nil g)

theorem ne_strings_disjoint {s1 s2 : String} (hne : s1 ≠ s2) :
    ∀ h : Heir, ¬((h.relationship == s1) = true ∧ (h.relationship == s2) = true) := by
  intro h ⟨h1, h2⟩
  exact hne ((eq_of_beq h1).symm.trans (eq_of_beq h2))

theorem filter_ids_nodup {act : List Heir} (hact : (act.map Heir.id).Nodup)
    (p : Heir → Bool) : ((act.filter p).map Heir.id).Nodup :=
  ((List.filter_sublist act).map Heir.id).nodup hact

theorem append_filters_ids_nodup {act : List Heir} (hact : (act.map Heir.id).Nodup)
    (p q : Heir → Bool) (hpq : ∀ h : Heir, ¬(p h = true ∧ q h = true)) :
    (((act.filter p) ++ (act.filter q)).map Heir.id).Nodup := by
  rw [List.map_append, List.nodup_append]
  refine ⟨filter_ids_nodup hact p, filter_ids_nodup hact q, ?_⟩
  intro x hx1 hx2
  rcases List.mem_map.mp hx1 with ⟨a, ha, rfl⟩
  rcases List.mem_map.mp hx2 with ⟨b, hb, hba⟩
  rcases List.mem_filter.mp ha with ⟨hal, hap⟩
  rcases List.mem_filter.mp hb with ⟨hbl, hbq⟩
  have hab : b = a := idInjOn act hact b hbl a hal hba
  rw [hab] at hbq
  exact hpq a ⟨hap, hbq⟩

theorem group_ids_nodup {heirs : List Heir} (hnd : (heirs.map Heir.id).Nodup) :
    ((residuaryGroup heirs).map Heir.id).Nodup := by
  have hact := act_ids_nodup hnd
  simp only [residuaryGroup]
  split_ifs
  · exact append_filters_ids_nodup hact _ _ (ne_strings_disjoint (by decide))
  · exact append_filters_ids_nodup hact _ _ (ne_strings_disjoint (by decide))
  · exact (((List.take_sublist 1 _).trans (List.filter_sublist _)).map Heir.id).nodup hact
  · exact (((List.take_sublist 1 _).trans (List.filter_sublist _)).map Heir.id).nodup hact
  · exact append_filters_ids_nodup hact _ _ (ne_strings_disjoint (by decide))
  · exact append_filters_ids_nodup hact _ _ (ne_strings_disjoint (by decide))
  · exact filter_ids_nodup hact _
  · simp

/-! ## Sign facts -/

theorem resWeight_pos (h : Heir) : 0 < resWeight h := by
  rw [resWeight]; split <;> norm_num

theorem totalWeight_nonneg (heirs : List Heir) : 0 ≤ totalWeightOf heirs := by
  rw [totalWeightOf, qsum_eq]
  exact sum_map_nonneg_q _ _ (fun x _ => (resWeight_pos x).le)

theorem totalWeight_pos {heirs : List Heir} (hne : residuaryGroup heirs ≠ []) :
    0 < totalWeightOf heirs := by
  rw [totalWeightOf, qsum_eq]
  exact sum_map_pos_q _ _ hne (fun x _ => resWeight_pos x)

theorem distApplies_iff {heirs : List Heir} :
    distApplies heirs = true ↔ 0 < residueOf heirs ∧ residuaryGroup heirs ≠ [] := by
  rw [distApplies]
  simp [List.isEmpty_iff]

theorem raddApplies_iff {heirs : List Heir} :
    raddApplies heirs = true
      ↔ finalTotalPre heirs < 24 ∧ 0 < residueOf heirs ∧ raddHeirs heirs ≠ [] := by
  rw [raddApplies]
  simp [List.isEmpty_iff, and_assoc]

theorem husbandShare_nonneg (hs : List Heir) : 0 ≤ (husbandShare hs).1 := by
  rw [husbandShare]; split_ifs <;> norm_num

theorem wifeShare_nonneg (hs : List Heir) : 0 ≤ (wifeShare hs).1 := by
  rw [wifeShare]
  try dsimp only
  split_ifs <;> (try dsimp only) <;>
    first
      | (rw [qdiv_eq, qofNat_eq]; positivity)
      | norm_num

theorem fatherShare_nonneg (hs : List Heir) : 0 ≤ (fatherShare hs).1 := by
  rw [fatherShare]; split_ifs <;> norm_num

theorem motherShare_nonneg (hs : List Heir) : 0 ≤ (motherShare hs).1 := by
  rw [motherShare]; split_ifs <;> norm_num

theorem daughterShare_nonneg (hs : List Heir) : 0 ≤ (daughterShare hs).1 := by
  rw [daughterShare]
  try dsimp only
  split_ifs <;> (try dsimp only) <;>
    first
      | (rw [qdiv_eq, qofNat_eq]; positivity)
      | norm_num

theorem granddaughterShare_nonneg (hs : List Heir) : 0 ≤ (granddaughterShare hs).1 := by
  rw [granddaughterShare]
  try dsimp only
  split_ifs <;> (try dsimp only) <;>
    first
      | (rw [qdiv_eq, qofNat_eq]; positivity)
      | norm_num

theorem grandfatherShare_nonneg (hs : List Heir) : 0 ≤ (grandfatherShare hs).1 := by
  rw [grandfatherShare]; split_ifs <;> norm_num

theorem grandmotherShare_nonneg (hs : List Heir) : 0 ≤ (grandmotherShare hs).1 := by
  rw [grandmotherShare]
  dsimp only
  rw [qdiv_eq, qofNat_eq]; positivity

theorem sisterShare_nonneg (hs : List Heir) (r : String) : 0 ≤ (sisterShare hs r).1 := by
  rw [sisterShare]
  try dsimp only
  split_ifs <;> (try dsimp only) <;>
    first
      | (rw [qdiv_eq, qofNat_eq]; positivity)
      | norm_num

theorem uterineShare_nonneg (hs : List Heir) : 0 ≤ (uterineShare hs).1 := by
  rw [uterineShare]
  try dsimp only
  split_ifs <;> (try dsimp only) <;>
    first
      | (rw [qdiv_eq, qofNat_eq]; positivity)
      | norm_num

theorem fixedParts_nonneg (hs : List Heir) (h : Heir) : 0 ≤ fixedPartsOf hs h := by
  rw [fixedPartsOf, fixedShare]
  split_ifs
  · exact husbandShare_nonneg hs
  · exact wifeShare_nonneg hs
  · exact fatherShare_nonneg hs
  · exact motherShare_nonneg hs
  · exact daughterShare_nonneg hs
  · exact granddaughterShare_nonneg hs
  · exact grandfatherShare_nonneg hs
  · exact grandmotherShare_nonneg hs
  · exact sisterShare_nonneg hs h.relationship
  · exact uterineShare_nonneg hs
  · norm_num

theorem partsAfter_split (heirs : List Heir) (h : Heir) :
    partsAfterResidue heirs h
      = fixedPartsOf (normHeirs heirs) h
        + (if (distApplies heirs && inGroup heirs h) = true then
            resWeight h / totalWeightOf heirs * residueOf heirs else 0) := by
  rw [partsAfterResidue, fixedPartsOf]
  cases hc : (distApplies heirs && inGroup heirs h) <;>
    simp [hc, qadd_eq, qmul_eq, qdiv_eq]

theorem partsAfter_nonneg (heirs : List Heir) (h : Heir) :
    0 ≤ partsAfterResidue heirs h := by
  rw [partsAfter_split]
  have h1 := fixedParts_nonneg (normHeirs heirs) h
  split_ifs with hc
  · rw [Bool.and_eq_true] at hc
    obtain ⟨hd, _⟩ := hc
    rcases distApplies_iff.mp hd with ⟨hres, _⟩
    have hW := totalWeight_nonneg heirs
    have hw := (resWeight_pos h).le
    have : 0 ≤ resWeight h / totalWeightOf heirs * residueOf heirs :=
      mul_nonneg (div_nonneg hw hW) hres.le
    linarith
  · linarith

theorem raddHeirs_subset {heirs : List Heir} :
    ∀ x ∈ raddHeirs heirs, x ∈ activeHeirs heirs := by
  intro x hx
  exact (List.mem_filter.mp hx).1

theorem raddHeirs_ids_nodup {heirs : List Heir} (hnd : (heirs.map Heir.id).Nodup) :
    ((raddHeirs heirs).map Heir.id).Nodup :=
  filter_ids_nodup (act_ids_nodup hnd) _

theorem raddHeirs_parts_pos {heirs : List Heir} :
    ∀ x ∈ raddHeirs heirs, 0 < partsAfterResidue heirs x := by
  intro x hx
  have h2 := (List.mem_filter.mp hx).2
  rw [Bool.and_eq_true] at h2
  exact of_decide_eq_true h2.2

theorem raddBase_nonneg (heirs : List Heir) : 0 ≤ raddBase heirs := by
  rw [raddBase, qsum_eq]
  exact sum_map_nonneg_q _ _ (fun x _ => partsAfter_nonneg heirs x)

theorem raddBase_pos {heirs : List Heir} (hne : raddHeirs heirs ≠ []) :
    0 < raddBase heirs := by
  rw [raddBase, qsum_eq]
  exact sum_map_pos_q _ _ hne raddHeirs_parts_pos

theorem surplus_pos_of_radd {heirs : List Heir} (hr : raddApplies heirs = true) :
    0 < surplusOf heirs := by
  rw [surplusOf, qsub_eq]
  have := (raddApplies_iff.mp hr).1
  linarith

theorem finalParts_split (heirs : List Heir) (h : Heir) :
    finalParts heirs h
      = partsAfterResidue heirs h
        + (if (raddApplies heirs && inRadd heirs h) = true then
            partsAfterResidue heirs h / raddBase heirs * surplusOf heirs else 0) := by
  rw [finalParts]
  cases hc : (raddApplies heirs && inRadd heirs h) <;>
    simp [hc, qadd_eq, qmul_eq, qdiv_eq]

theorem finalParts_nonneg (heirs : List Heir) (h : Heir) :
    0 ≤ finalParts heirs h := by
  rw [finalParts_split]
  have h1 := partsAfter_nonneg heirs h
  split_ifs with hc
  · rw [Bool.and_eq_true] at hc
    obtain ⟨hr, _⟩ := hc
    have hs := (surplus_pos_of_radd hr).le
    have hB := raddBase_nonneg heirs
    have : 0 ≤ partsAfterResidue heirs h / raddBase heirs * surplusOf heirs :=
      mul_nonneg (div_nonneg h1 hB) hs
    linarith
  · linarith

/-! ## Summation results -/

theorem sum_group_shares {heirs : List Heir} (hdist : distApplies heirs = true) :
    ((residuaryGroup heirs).map
        (fun g => resWeight g / totalWeightOf heirs * residueOf heirs)).sum
      = residueOf heirs := by
  obtain ⟨_, hne⟩ := distApplies_iff.mp hdist
  have hW : 0 < totalWeightOf heirs := totalWeight_pos hne
  have hcong : ∀ g ∈ residuaryGroup heirs,
      resWeight g / totalWeightOf heirs * residueOf heirs
        = resWeight g * (residueOf heirs / totalWeightOf heirs) := by
    intro g _; ring
  rw [List.map_congr_left hcong, List.sum_map_mul_right]
  have hW' : ((residuaryGroup heirs).map resWeight).sum = totalWeightOf heirs :=
    (qsum_eq _).symm
  rw [hW', mul_comm, div_mul_cancel₀ _ hW.ne']

theorem sum_radd_shares {heirs : List Heir} (hr : raddApplies heirs = true) :
    ((raddHeirs heirs).map
        (fun g => partsAfterResidue heirs g / raddBase heirs * surplusOf heirs)).sum
      = surplusOf heirs := by
  obtain ⟨_, _, hne⟩ := raddApplies_iff.mp hr
  have hB : 0 < raddBase heirs := raddBase_pos hne
  have hcong : ∀ g ∈ raddHeirs heirs,
      partsAfterResidue heirs g / raddBase heirs * surplusOf heirs
        = partsAfterResidue heirs g * (surplusOf heirs / raddBase heirs) := by
    intro g _; ring
  rw [List.map_congr_left hcong, List.sum_map_mul_right]
  have hB' : ((raddHeirs heirs).map (partsAfterResidue heirs)).sum = raddBase heirs :=
    (qsum_eq _).symm
  rw [hB', mul_comm, div_mul_cancel₀ _ hB.ne']

theorem finalTotalPre_eq {heirs : List Heir} (hnd : (heirs.map Heir.id).Nodup) :
    finalTotalPre heirs
      = totalFixedOf heirs + (if distApplies heirs = true then residueOf heirs else 0) := by
  rw [finalTotalPre, qsum_eq,
    List.map_congr_left (fun h _ => partsAfter_split heirs h), sum_map_add_q]
  have h1 : ((activeHeirs heirs).map (fun h => fixedPartsOf (normHeirs heirs) h)).sum
      = totalFixedOf heirs := (qsum_eq _).symm
  rw [h1]
  congr 1
  by_cases hd : distApplies heirs = true
  · rw [if_pos hd]
    have hcond : ∀ h ∈ activeHeirs heirs,
        (if (distApplies heirs && inGroup heirs h) = true then
          resWeight h / totalWeightOf heirs * residueOf heirs else 0)
          = (if ((residuaryGroup heirs).any fun g => g.id == h.id) = true then
              resWeight h / totalWeightOf heirs * residueOf heirs else 0) := by
      intro h _
      rw [hd, inGroup]
      simp
    rw [List.map_congr_left hcond,
      sum_indicator (activeHeirs heirs) (act_ids_nodup hnd) (residuaryGroup heirs)
        group_subset (group_ids_nodup hnd)
        (fun h => resWeight h / totalWeightOf heirs * residueOf heirs)]
    exact sum_group_shares hd
  · rw [if_neg hd]
    have hd' : distApplies heirs = false := by
      cases hdd : distApplies heirs
      · rfl
      · exact absurd hdd hd
    have hz : ∀ h ∈ activeHeirs heirs,
        (if (distApplies heirs && inGroup heirs h) = true then
          resWeight h / totalWeightOf heirs * residueOf heirs else 0) = (0 : ℚ) := by
      intro h _
      rw [hd']
      simp
    rw [List.map_congr_left hz]
    exact sum_map_zero_q _

theorem sum_final_eq {heirs : List Heir} (hnd : (heirs.map Heir.id).Nodup) :
    ((activeHeirs heirs).map (finalParts heirs)).sum
      = finalTotalPre heirs + (if raddApplies heirs = true then surplusOf heirs else 0) := by
  rw [List.map_congr_left (fun h _ => finalParts_split heirs h), sum_map_add_q]
  have h1 : ((activeHeirs heirs).map (fun h => partsAfterResidue heirs h)).sum
      = finalTotalPre heirs := (qsum_eq _).symm
  rw [h1]
  congr 1
  by_cases hr : raddApplies heirs = true
  · rw [if_pos hr]
    have hcond : ∀ h ∈ activeHeirs heirs,
        (if (raddApplies heirs && inRadd heirs h) = true then
          partsAfterResidue heirs h / raddBase heirs * surplusOf heirs else 0)
          = (if ((raddHeirs heirs).any fun g => g.id == h.id) = true then
              partsAfterResidue heirs h / raddBase heirs * surplusOf heirs else 0) := by
      intro h _
      rw [hr, inRadd]
      simp
    rw [List.map_congr_left hcond,
      sum_indicator (activeHeirs heirs) (act_ids_nodup hnd) (raddHeirs heirs)
        raddHeirs_subset (raddHeirs_ids_nodup hnd)
        (fun h => partsAfterResidue heirs h / raddBase heirs * surplusOf heirs)]
    exact sum_radd_shares hr
  · rw [if_neg hr]
    have hr' : raddApplies heirs = false := by
      cases hrr : raddApplies heirs
      · rfl
      · exact absurd hrr hr
    have hz : ∀ h ∈ activeHeirs heirs,
        (if (raddApplies heirs && inRadd heirs h) = true then
          partsAfterResidue heirs h / raddBase heirs * surplusOf heirs else 0) = (0 : ℚ) := by
      intro h _
      rw [hr']
      simp
    rw [List.map_congr_left hz]
    exact sum_map_zero_q _

theorem radd_false_of_awl {heirs : List Heir} (hAwl : (24 : ℚ) < finalTotalPre heirs) :
    raddApplies heirs = false := by
  rw [raddApplies]
  simp [not_lt.mpr hAwl.le]

theorem caseTag_awl {heirs : List Heir} (hAwl : (24 : ℚ) < finalTotalPre heirs) :
    caseTagOf heirs = "Awl" := by
  rw [caseTagOf, if_pos (decide_eq_true hAwl)]

theorem caseTag_radd {heirs : List Heir} (hAwl : ¬(24 : ℚ) < finalTotalPre heirs)
    (hr : raddApplies heirs = true) : caseTagOf heirs = "Radd" := by
  rw [caseTagOf, if_neg (by simp only [decide_eq_true_eq]; exact hAwl), if_pos hr]

theorem caseTag_standard {heirs : List Heir} (hAwl : ¬(24 : ℚ) < finalTotalPre heirs)
    (hr : raddApplies heirs = false) : caseTagOf heirs = "Standard" := by
  rw [caseTagOf, if_neg (by simp only [decide_eq_true_eq]; exact hAwl),
    if_neg (by simp [hr])]

theorem baseNumber_awl {heirs : List Heir} (hAwl : (24 : ℚ) < finalTotalPre heirs) :
    baseNumberOf heirs = finalTotalPre heirs := by
  rw [baseNumberOf, caseTag_awl hAwl, if_pos (beq_self_eq_true "Awl"), finalTotalOf,
    radd_false_of_awl hAwl]
  simp

theorem baseNumber_24 {heirs : List Heir} (h : caseTagOf heirs ≠ "Awl") :
    baseNumberOf heirs = 24 := by
  rw [baseNumberOf, if_neg]
  intro hb
  exact h (eq_of_beq hb)

/-- Mathematical closure of the engine: the exact (unrounded) final parts of
the active heirs plus the unconsumed `residueParts` always equal the base
number. -/
theorem parts_closure {heirs : List Heir} (hnd : (heirs.map Heir.id).Nodup) :
    ((activeHeirs heirs).map (finalParts heirs)).sum + residuePartsOf heirs
      = baseNumberOf heirs := by
  rw [sum_final_eq hnd]
  by_cases hAwl : (24 : ℚ) < finalTotalPre heirs
  · have hr : raddApplies heirs = false := radd_false_of_awl hAwl
    have hd : distApplies heirs = false := by
      cases hd : distApplies heirs
      · rfl
      · exfalso
        have heq := finalTotalPre_eq hnd
        rw [hd, if_pos rfl, residueOf, qsub_eq] at heq
        have hft : finalTotalPre heirs = 24 := by linarith
        linarith
    have hfteq : finalTotalPre heirs = totalFixedOf heirs := by
      have heq := finalTotalPre_eq hnd
      rw [hd] at heq
      simpa using heq
    have hrp : residuePartsOf heirs = 0 := by
      rw [residuePartsOf, hr, hd]
      simp only [Bool.false_eq_true, if_false]
      rw [if_neg]
      intro hpos
      have hpos' := of_decide_eq_true hpos
      rw [residueOf, qsub_eq] at hpos'
      linarith
    rw [hr, hrp, baseNumber_awl hAwl]
    simp
  · by_cases hradd : raddApplies heirs = true
    · have hrp : residuePartsOf heirs = 0 := by
        rw [residuePartsOf, hradd]
        simp
      rw [hradd, if_pos rfl, surplusOf, qsub_eq, hrp,
        baseNumber_24 (by rw [caseTag_radd hAwl hradd]; decide)]
      ring
    · have hradd' : raddApplies heirs = false := by
        cases h : raddApplies heirs
        · rfl
        · exact absurd h hradd
      rw [hradd']
      simp only [Bool.false_eq_true, if_false, add_zero]
      rw [baseNumber_24 (by rw [caseTag_standard hAwl hradd']; decide)]
      cases hd : distApplies heirs
      · have hfteq : finalTotalPre heirs = totalFixedOf heirs := by
          have heq := finalTotalPre_eq hnd
          rw [hd] at heq
          simpa using heq
        rw [residuePartsOf, hradd', hd]
        simp only [Bool.false_eq_true, if_false]
        by_cases hres : 0 < residueOf heirs
        · rw [if_pos (decide_eq_true hres), residueOf, qsub_eq, hfteq]
          ring
        · rw [if_neg (by simp only [decide_eq_true_eq]; exact hres)]
          have h1 : residueOf heirs ≤ 0 := not_lt.mp hres
          rw [residueOf, qsub_eq] at h1
          rw [hfteq] at hAwl
          push_neg at hAwl
          rw [hfteq]
          linarith
      · have heq := finalTotalPre_eq hnd
        rw [hd, if_pos rfl, residueOf, qsub_eq] at heq
        have hrp : residuePartsOf heirs = 0 := by
          rw [residuePartsOf, hradd', hd]
          simp
        rw [hrp]
        linarith

/-! ## Label and output facts -/

theorem label_none_iff (heirs : List Heir) (h : Heir) :
    labelAfterResidue heirs h = none ↔ partsAfterResidue heirs h = 0 := by
  rw [labelAfterResidue, partsAfterResidue]
  cases hc : (distApplies heirs && inGroup heirs h)
  · simp only [Bool.false_eq_true, if_false]
    by_cases hp : 0 < (fixedShare (normHeirs heirs) h).1
    · rw [if_pos (decide_eq_true hp)]
      constructor
      · intro hn
        exact absurd hn (by simp)
      · intro h0
        rw [fixedPartsOf] at h0
        rw [h0] at hp
        exact absurd hp (lt_irrefl 0)
    · rw [if_neg (by simp only [decide_eq_true_eq]; exact hp)]
      have h0 : fixedPartsOf (normHeirs heirs) h = 0 :=
        le_antisymm (not_lt.mp hp) (fixedParts_nonneg _ h)
      exact ⟨fun _ => h0, fun _ => rfl⟩
  · simp only [if_true]
    constructor
    · intro hn
      exact absurd hn (by simp)
    · intro h0
      exfalso
      rw [Bool.and_eq_true] at hc
      obtain ⟨hd, _⟩ := hc
      obtain ⟨hres, hne⟩ := distApplies_iff.mp hd
      have hW := totalWeight_pos hne
      have hw := resWeight_pos h
      have hfx := fixedParts_nonneg (normHeirs heirs) h
      rw [qadd_eq, qmul_eq, qdiv_eq] at h0
      have hb : 0 < resWeight h / totalWeightOf heirs * residueOf heirs :=
        mul_pos (div_pos hw hW) hres
      linarith

theorem finalParts_zero_iff (heirs : List Heir) (h : Heir) :
    finalParts heirs h = 0 ↔ partsAfterResidue heirs h = 0 := by
  rw [finalParts]
  cases hc : (raddApplies heirs && inRadd heirs h)
  · simp
  · rw [Bool.and_eq_true] at hc
    obtain ⟨hr, _⟩ := hc
    have hsur := surplus_pos_of_radd hr
    have hB := raddBase_nonneg heirs
    have hp := partsAfter_nonneg heirs h
    rw [if_pos rfl, qadd_eq, qmul_eq, qdiv_eq]
    constructor
    · intro h0
      by_contra hne
      have hppos : 0 < partsAfterResidue heirs h := lt_of_le_of_ne hp (Ne.symm hne)
      have hb : 0 ≤ partsAfterResidue heirs h / raddBase heirs * surplusOf heirs :=
        mul_nonneg (div_nonneg hp hB) hsur.le
      linarith
    · intro h0
      rw [h0]
      simp

theorem mkShare_heir (netEstate : ℚ) (heirs : List Heir) (h : Heir) :
    (mkShare netEstate heirs h).heir = h := by
  dsimp only [mkShare]

theorem mkShare_fraction (netEstate : ℚ) (heirs : List Heir) (h : Heir) :
    (mkShare netEstate heirs h).fraction = (labelAfterResidue heirs h).getD "Excluded" := by
  dsimp only [mkShare]

theorem mkShare_parts (netEstate : ℚ) (heirs : List Heir) (h : Heir) :
    (mkShare netEstate heirs h).parts = roundDec 1000 (finalParts heirs h) := by
  dsimp only [mkShare]

theorem mkShare_amount (netEstate : ℚ) (heirs : List Heir) (h : Heir) :
    (mkShare netEstate heirs h).shareAmount
      = jsRound (qmul (qdiv (finalParts heirs h) (baseNumberOf heirs)) netEstate) := by
  dsimp only [mkShare]

theorem fraction_excluded_of_zero {netEstate : ℚ} {heirs : List Heir} {h : Heir}
    (h0 : finalParts heirs h = 0) :
    (mkShare netEstate heirs h).fraction = "Excluded" := by
  rw [mkShare_fraction,
    (label_none_iff heirs h).mpr ((finalParts_zero_iff heirs h).mp h0)]
  rfl

theorem isEmpty_false_of_ne {heirs : List Heir} (hne : heirs ≠ []) :
    heirs.isEmpty = false := by
  cases heirs
  · exact absurd rfl hne
  · rfl

theorem calc_heirs (netEstate : ℚ) {heirs : List Heir} (hne : heirs ≠ []) :
    (calculateFaraid netEstate heirs).heirs
      = (activeHeirs heirs).map (mkShare netEstate heirs) := by
  rw [calculateFaraid, isEmpty_false_of_ne hne]
  rfl

theorem calc_base (netEstate : ℚ) {heirs : List Heir} (hne : heirs ≠ []) :
    (calculateFaraid netEstate heirs).baseNumber = baseNumberOf heirs := by
  rw [calculateFaraid, isEmpty_false_of_ne hne]
  rfl

theorem calc_residue (netEstate : ℚ) {heirs : List Heir} (hne : heirs ≠ []) :
    (calculateFaraid netEstate heirs).residueParts = residuePartsOf heirs := by
  rw [calculateFaraid, isEmpty_false_of_ne hne]
  rfl

theorem calc_caseTag (netEstate : ℚ) {heirs : List Heir} (hne : heirs ≠ []) :
    (calculateFaraid netEstate heirs).caseTag = caseTagOf heirs := by
  rw [calculateFaraid, isEmpty_false_of_ne hne]
  rfl

theorem calc_totalFixed (netEstate : ℚ) {heirs : List Heir} (hne : heirs ≠ []) :
    (calculateFaraid netEstate heirs).totalFixedParts = finalTotalOf heirs := by
  rw [calculateFaraid, isEmpty_false_of_ne hne]
  rfl

theorem calc_notes (netEstate : ℚ) {heirs : List Heir} (hne : heirs ≠ []) :
    (calculateFaraid netEstate heirs).notes = notesOf heirs := by
  rw [calculateFaraid, isEmpty_false_of_ne hne]
  rfl

/-! ## Claim C1 -/

/-- C1: corrected.  The original claim says the parts values returned in the
per-heir list sum exactly to the returned base number.  That fails whenever
part of the estate stays undistributed (no residuary heir and no Radd-eligible
heir), e.g. for a roster holding only a Husband; the engine records the gap in
`residueParts` instead.  Amended form, proved here: for every non-empty roster
with distinct heir ids, the sum of the exact (pre-rounding) final parts of the
listed heirs plus the unconsumed `residueParts` equals the returned
`baseNumber` (24 in Standard and Radd cases, the inflated total under Awl). -/
theorem c1_parts_sum (netEstate : ℚ) (heirs : List Heir) (hne : heirs ≠ [])
    (hnd : (heirs.map Heir.id).Nodup) :
    ((activeHeirs heirs).map (finalParts heirs)).sum
        + (calculateFaraid netEstate heirs).residueParts
      = (calculateFaraid netEstate heirs).baseNumber := by
  rw [calc_residue netEstate hne, calc_base netEstate hne]
  exact parts_closure hnd

/-- C1 witness: the amended statement holds at the concrete Husband-and-Daughter
roster with estate 240. -/
theorem c1_witness :
    (rosterHD ≠ [] ∧ (rosterHD.map Heir.id).Nodup)
      ∧ ((activeHeirs rosterHD).map (finalParts rosterHD)).sum
          + (calculateFaraid 240 rosterHD).residueParts
        = (calculateFaraid 240 rosterHD).baseNumber :=
  ⟨⟨by decide, by decide⟩, c1_parts_sum 240 rosterHD (by decide) (by decide)⟩

/-- C1 counterexample: for the roster holding a single Husband the returned
per-heir parts sum to 12 while the returned base number is 24 (the missing
12/24 is reported in `residueParts`), so the claim as stated is false. -/
theorem c1_counterexample :
    ((calculateFaraid 240 rosterHusbandOnly).heirs.map ShareResult.parts).sum = 12
      ∧ (calculateFaraid 240 rosterHusbandOnly).baseNumber = 24
      ∧ (calculateFaraid 240 rosterHusbandOnly).residueParts = 12
      ∧ (12 : ℚ) ≠ 24 := by
  have h : ((calculateFaraid 240 rosterHusbandOnly).heirs.map ShareResult.parts) = [12] := by
    decide
  exact ⟨by rw [h]; simp, by decide, by decide, by decide⟩

/-! ## Claim C3 -/

/-- C3: corrected.  The engine returns the degenerate empty result (empty heirs
list, zero totals) for an empty (or missing) heir list, exactly as claimed.
But the claimed zero-estate half is false: source line 40 tests only the heir
list, so with estate 0 and a non-empty roster the engine computes shares as
usual (non-empty heirs list, non-zero parts totals) and only the absolute
currency amounts are 0.  Amended form, proved here. -/
theorem c3_degenerate (netEstate : ℚ) (heirs : List Heir) :
    (heirs = [] →
      (calculateFaraid netEstate heirs).heirs = []
        ∧ (calculateFaraid netEstate heirs).totalFixedParts = 0
        ∧ (calculateFaraid netEstate heirs).residueParts = 0
        ∧ (calculateFaraid netEstate heirs).baseNumber = 24
        ∧ (calculateFaraid netEstate heirs).notes = [])
    ∧ (netEstate = 0 →
        ∀ sr ∈ (calculateFaraid netEstate heirs).heirs, sr.shareAmount = 0) := by
  constructor
  · intro he
    subst he
    exact ⟨rfl, rfl, rfl, rfl, rfl⟩
  · intro h0 sr hsr
    subst h0
    by_cases hne : heirs = []
    · subst hne
      rw [show (calculateFaraid 0 ([] : List Heir)).heirs = [] from rfl] at hsr
      exact absurd hsr (List.not_mem_nil sr)
    · rw [calc_heirs 0 hne] at hsr
      rcases List.mem_map.mp hsr with ⟨h, _, rfl⟩
      rw [mkShare_amount]
      have hq : qmul (qdiv (finalParts heirs h) (baseNumberOf heirs)) 0 = 0 := by
        rw [qmul_eq, mul_zero]
      rw [hq]
      decide

/-- C3 witness: the amended statement instantiated at an empty roster and at a
zero estate with a single Son. -/
theorem c3_witness :
    (calculateFaraid 0 ([] : List Heir)).heirs = []
      ∧ (∀ sr ∈ (calculateFaraid 0 rosterSonOnly).heirs, sr.shareAmount = 0) :=
  ⟨((c3_degenerate 0 []).1 rfl).1, (c3_degenerate 0 rosterSonOnly).2 rfl⟩

/-- C3 counterexample: with estate amount 0 and a roster of one Son the engine
does not return an empty result: the heirs list has one entry and the total
assigned parts are 24, refuting the zero-estate half of the claim. -/
theorem c3_counterexample :
    (calculateFaraid 0 rosterSonOnly).heirs.length = 1
      ∧ (calculateFaraid 0 rosterSonOnly).totalFixedParts = 24
      ∧ ¬((calculateFaraid 0 rosterSonOnly).heirs = []) := by
  exact ⟨by decide, by decide, by decide⟩

/-! ## Claim C6 -/

/-- C6: confirmed.  Whenever total assigned parts after residue distribution
exceed 24, the result is the Awl case: `caseTag` is "Awl", the returned base
number equals the inflated total, and no individual parts value is changed by
the adjustment (the Awl branch of source lines 334 to 337 only rewrites the
case tag, the base number and a note). -/
theorem c6_awl (netEstate : ℚ) (heirs : List Heir)
    (hAwl : (24 : ℚ) < finalTotalPre heirs) :
    (calculateFaraid netEstate heirs).caseTag = "Awl"
      ∧ (calculateFaraid netEstate heirs).baseNumber = finalTotalPre heirs
      ∧ ∀ h : Heir, finalParts heirs h = partsAfterResidue heirs h := by
  have hne : heirs ≠ [] := by
    intro he
    rw [he, show finalTotalPre ([] : List Heir) = 0 from rfl] at hAwl
    norm_num at hAwl
  refine ⟨?_, ?_, ?_⟩
  · rw [calc_caseTag netEstate hne]
    exact caseTag_awl hAwl
  · rw [calc_base netEstate hne]
    exact baseNumber_awl hAwl
  · intro h
    rw [finalParts, radd_false_of_awl hAwl]
    simp

/-- C6 witness: the Awl conclusion at the concrete roster Husband plus two Full
Sisters (12 + 8 + 8 = 28 parts). -/
theorem c6_witness :
    ((24 : ℚ) < finalTotalPre rosterAwl)
      ∧ ((calculateFaraid 240 rosterAwl).caseTag = "Awl"
        ∧ (calculateFaraid 240 rosterAwl).baseNumber = finalTotalPre rosterAwl
        ∧ ∀ h : Heir, finalParts rosterAwl h = partsAfterResidue rosterAwl h) :=
  ⟨by decide, c6_awl 240 rosterAwl (by decide)⟩

/-! ## Claim C8 -/

/-- C8: confirmed.  Roster of exactly one Husband and one Daughter: the case is
Radd with base 24; the Husband keeps 6 parts (fraction 1/4) and the Daughter
rises from a fixed share of 12 to a final 18. -/
theorem c8_husband_daughter :
    (calculateFaraid 2400 rosterHD).caseTag = "Radd"
      ∧ (calculateFaraid 2400 rosterHD).baseNumber = 24
      ∧ ((calculateFaraid 2400 rosterHD).heirs.map
          (fun sr => (sr.heir.relationship, sr.fraction, sr.parts)))
        = [("Husband", "1/4", 6), ("Daughter", "1/2", 18)]
      ∧ fixedPartsOf (normHeirs rosterHD) (normalizeOne hDaughter) = 12
      ∧ finalParts rosterHD (normalizeOne hDaughter) = 18 :=
  ⟨by decide, by decide, by decide, by decide, by decide⟩

/-! ## Claim C9 -/

/-- C9: confirmed.  Two Wives, one Son, one Father, net estate 2400000: each
Wife gets 1.5 parts (written 3/2) and 150000, the Son gets the residue of 17
parts and 1700000, the Father 4 parts and 400000; each amount is exactly
parts/24 times 2400000. -/
theorem c9_wives_son_father :
    ((calculateFaraid 2400000 rosterC9).heirs.map
        (fun sr => (sr.heir.relationship, sr.parts, sr.shareAmount)))
      = [("Wife", mkRat 3 2, 150000), ("Wife", mkRat 3 2, 150000),
          ("Son", 17, 1700000), ("Father", 4, 400000)]
      ∧ (calculateFaraid 2400000 rosterC9).caseTag = "Standard"
      ∧ qmul (qdiv (mkRat 3 2) 24) 2400000 = 150000
      ∧ qmul (qdiv (17 : ℚ) 24) 2400000 = 1700000
      ∧ qmul (qdiv (4 : ℚ) 24) 2400000 = 400000 :=
  ⟨by decide, by decide, by decide, by decide, by decide⟩

/-! ## Claim C5 -/

/-- C5: corrected.  For the Mother threshold the code does not count canonical
siblings: source line 200 counts every heir of the full normalized roster
whose relationship label contains the substring Brother or Sister — including
Hajb-excluded heirs and non-sibling labels such as "Niece (Sister\x27s
Daughter)" (see the counterexample).  Amended and proved: a Mother heir is
assigned 4 fixed parts iff a descendant exists or at least two such
substring-matching heirs exist anywhere in the normalized roster, and 8
otherwise; a Mother is also never excluded by Hajb. -/
theorem c5_mother_share (heirs : List Heir) (h : Heir)
    (hrel : h.relationship = "Mother") :
    fixedPartsOf (normHeirs heirs) h
        = (if hasDescendant (normHeirs heirs) = true
              ∨ 2 ≤ sibLikeCount (normHeirs heirs) then 4 else 8)
      ∧ excludedB (normHeirs heirs) h = false := by
  constructor
  · simp only [fixedPartsOf, fixedShare, hrel, motherShare]
    rw [if_neg (by decide), if_neg (by decide), if_neg (by decide)]
    split_ifs <;> rfl
  · simp [excludedB, hrel, alwaysExcluded, distantKindred, siblingRels,
      strIncludes, occursIn, matchesAt]

/-- C5 witness: a roster holding only a Mother (no descendant, no
substring-matching heirs): 8 parts. -/
theorem c5_witness :
    (hMother.relationship = "Mother")
      ∧ (fixedPartsOf (normHeirs rosterMotherOnly) hMother
            = (if hasDescendant (normHeirs rosterMotherOnly) = true
                  ∨ 2 ≤ sibLikeCount (normHeirs rosterMotherOnly) then 4 else 8)
          ∧ excludedB (normHeirs rosterMotherOnly) hMother = false) :=
  ⟨rfl, c5_mother_share rosterMotherOnly hMother rfl⟩

/-- C5 counterexample: Mother plus two "Niece (Sister\x27s Daughter)" heirs.
There is no descendant and the roster holds zero canonical siblings, yet the
Mother is assigned 4 parts, not the 8 the claim requires: the nieces count
only because their label contains the substring "Sister". -/
theorem c5_counterexample :
    fixedPartsOf (normHeirs rosterMotherNieces) (normalizeOne hMother) = 4
      ∧ hasDescendant (normHeirs rosterMotherNieces) = false
      ∧ specSiblingCount (normHeirs rosterMotherNieces) = 0
      ∧ fixedPartsOf (normHeirs rosterMotherNieces) (normalizeOne hMother) ≠ 8 :=
  ⟨by decide, by decide, by decide, by decide⟩

/-! ## Claim C7 -/

/-- C7: confirmed.  When the Radd redistribution runs (total parts below 24,
empty residuary group, at least one Radd-eligible heir), spouses keep their
parts unchanged, heirs outside the Radd set keep their parts unchanged, and
every Radd heir gains exactly its proportional boost
`parts / raddBase * surplus`, a strict increase. -/
theorem c7_radd_frame (heirs : List Heir) (hnd : (heirs.map Heir.id).Nodup)
    (hlt : finalTotalPre heirs < 24)
    (hgrp : residuaryGroup heirs = [])
    (hrh : raddHeirs heirs ≠ []) :
    ∀ h ∈ activeHeirs heirs,
      (isSpouse h = true → finalParts heirs h = partsAfterResidue heirs h)
        ∧ (h ∈ raddHeirs heirs →
            finalParts heirs h
                = partsAfterResidue heirs h
                  + partsAfterResidue heirs h / raddBase heirs * surplusOf heirs
              ∧ partsAfterResidue heirs h < finalParts heirs h)
        ∧ (h ∉ raddHeirs heirs → finalParts heirs h = partsAfterResidue heirs h) := by
  have hdist : distApplies heirs = false := by
    rw [distApplies, hgrp]
    simp
  have hparts : ∀ hh : Heir, partsAfterResidue heirs hh = fixedPartsOf (normHeirs heirs) hh := by
    intro hh
    rw [partsAfterResidue, hdist]
    simp
  have hfteq : finalTotalPre heirs = totalFixedOf heirs := by
    rw [finalTotalPre, totalFixedOf]
    congr 1
    exact List.map_congr_left (fun hh _ => hparts hh)
  have hres : 0 < residueOf heirs := by
    rw [residueOf, qsub_eq]
    rw [hfteq] at hlt
    linarith
  have hra : raddApplies heirs = true := raddApplies_iff.mpr ⟨hlt, hres, hrh⟩
  have hB := raddBase_pos hrh
  have hsur := surplus_pos_of_radd hra
  intro h hact
  have hinIff : inRadd heirs h = true ↔ h ∈ raddHeirs heirs := by
    rw [inRadd]
    constructor
    · intro hin
      rcases List.any_eq_true.mp hin with ⟨g, hg, hgid⟩
      have hgh : g = h :=
        idInjOn (activeHeirs heirs) (act_ids_nodup hnd) g
          (List.mem_filter.mp hg).1 h hact (eq_of_beq hgid)
      exact hgh ▸ hg
    · intro hin
      exact List.any_eq_true.mpr ⟨h, hin, beq_self_eq_true h.id⟩
  have hfalse_of_notin : h ∉ raddHeirs heirs → inRadd heirs h = false := by
    intro hnotin
    cases hi : inRadd heirs h
    · rfl
    · exact absurd (hinIff.mp hi) hnotin
  refine ⟨?_, ?_, ?_⟩
  · intro hsp
    have hnotin : h ∉ raddHeirs heirs := by
      intro hin
      have h2 := (List.mem_filter.mp hin).2
      rw [Bool.and_eq_true] at h2
      rw [hsp] at h2
      simp at h2
    rw [finalParts_split, hfalse_of_notin hnotin]
    simp
  · intro hin
    have htrue : inRadd heirs h = true := hinIff.mpr hin
    have hppos : 0 < partsAfterResidue heirs h := raddHeirs_parts_pos h hin
    have hboost : 0 < partsAfterResidue heirs h / raddBase heirs * surplusOf heirs :=
      mul_pos (div_pos hppos hB) hsur
    constructor
    · rw [finalParts_split, hra, htrue]
      simp
    · rw [finalParts_split, hra, htrue]
      simp only [Bool.and_self, if_true]
      linarith
  · intro hnotin
    rw [finalParts_split, hfalse_of_notin hnotin]
    simp

/-- C7 witness: the Radd frame property at the Husband-and-Daughter roster
(total 18 of 24, empty residuary group, Daughter the only Radd heir). -/
theorem c7_witness :
    (finalTotalPre rosterHD < 24 ∧ residuaryGroup rosterHD = []
        ∧ raddHeirs rosterHD ≠ [])
      ∧ ∀ h ∈ activeHeirs rosterHD,
        (isSpouse h = true → finalParts rosterHD h = partsAfterResidue rosterHD h)
          ∧ (h ∈ raddHeirs rosterHD →
              finalParts rosterHD h
                  = partsAfterResidue rosterHD h
                    + partsAfterResidue rosterHD h / raddBase rosterHD * surplusOf rosterHD
                ∧ partsAfterResidue rosterHD h < finalParts rosterHD h)
          ∧ (h ∉ raddHeirs rosterHD → finalParts rosterHD h = partsAfterResidue rosterHD h) :=
  ⟨⟨by decide, by decide, by decide⟩,
    c7_radd_frame rosterHD (by decide) (by decide) (by decide) (by decide)⟩

/-! ## Claim C2 -/

/-- C2: corrected.  Output assembly (source lines 372 to 396) iterates only
`activeHeirs`, so heirs placed in the excluded set by normalization or Hajb
are omitted from the returned heirs list entirely (they are mentioned only in
the notes); the claim that every input heir still appears, labelled Excluded,
is false (see counterexample).  Amended and proved: for rosters with distinct
ids, every input heir NOT excluded appears exactly once (as its normalized
record), either with positive exact parts or carrying the fraction label
"Excluded"; every excluded heir does not appear at all. -/
theorem c2_output_membership (netEstate : ℚ) (heirs : List Heir)
    (hnd : (heirs.map Heir.id).Nodup) :
    ∀ h0 ∈ heirs,
      (excludedB (normHeirs heirs) (normalizeOne h0) = true →
        (calculateFaraid netEstate heirs).heirs.filter
            (fun sr => sr.heir.id == h0.id) = [])
      ∧ (excludedB (normHeirs heirs) (normalizeOne h0) = false →
        (calculateFaraid netEstate heirs).heirs.filter
            (fun sr => sr.heir.id == h0.id)
          = [mkShare netEstate heirs (normalizeOne h0)]
        ∧ (0 < finalParts heirs (normalizeOne h0)
            ∨ (mkShare netEstate heirs (normalizeOne h0)).fraction = "Excluded")) := by
  intro h0 hmem
  have hne : heirs ≠ [] := by
    intro he
    rw [he] at hmem
    exact absurd hmem (List.not_mem_nil h0)
  have hmemN : normalizeOne h0 ∈ normHeirs heirs := List.mem_map_of_mem normalizeOne hmem
  have hact_nd := act_ids_nodup hnd
  rw [calc_heirs netEstate hne, filter_map_comm,
    show (fun a => (mkShare netEstate heirs a).heir.id == h0.id)
        = (fun a : Heir => a.id == h0.id) from
      funext (fun a => by rw [mkShare_heir])]
  constructor
  · intro hexc
    have hnil : (activeHeirs heirs).filter (fun a => a.id == h0.id) = [] := by
      apply List.filter_eq_nil_iff.mpr
      intro a ha
      cases hb : (a.id == h0.id)
      · simp
      · exfalso
        rcases mem_act_iff.mp ha with ⟨haN, hanot⟩
        have haeq : a = normalizeOne h0 :=
          idInjOn (normHeirs heirs) (norm_ids_nodup hnd) a haN (normalizeOne h0) hmemN
            (by rw [normalizeOne_id]; exact eq_of_beq hb)
        rw [haeq] at hanot
        rw [hanot] at hexc
        exact Bool.noConfusion hexc
    rw [hnil]
    rfl
  · intro hexc
    have hactmem : normalizeOne h0 ∈ activeHeirs heirs := mem_act_iff.mpr ⟨hmemN, hexc⟩
    have hsingle : (activeHeirs heirs).filter (fun a => a.id == h0.id)
        = [normalizeOne h0] := by
      rw [show (fun a : Heir => a.id == h0.id)
            = (fun a : Heir => a.id == (normalizeOne h0).id) from
          funext (fun a => by rw [normalizeOne_id])]
      exact filter_id_single (activeHeirs heirs) hact_nd (normalizeOne h0) hactmem
    rw [hsingle]
    refine ⟨rfl, ?_⟩
    by_cases hp : 0 < finalParts heirs (normalizeOne h0)
    · exact Or.inl hp
    · right
      have h0eq : finalParts heirs (normalizeOne h0) = 0 :=
        le_antisymm (not_lt.mp hp) (finalParts_nonneg heirs _)
      exact fraction_excluded_of_zero h0eq

/-- C2 witness: the amended statement at the Son-and-Grandson roster,
instantiated at the Son (the active heir). -/
theorem c2_witness :
    ((rosterSonGrandson.map Heir.id).Nodup ∧ hSon ∈ rosterSonGrandson)
      ∧ ((excludedB (normHeirs rosterSonGrandson) (normalizeOne hSon) = true →
            (calculateFaraid 240 rosterSonGrandson).heirs.filter
              (fun sr => sr.heir.id == hSon.id) = [])
        ∧ (excludedB (normHeirs rosterSonGrandson) (normalizeOne hSon) = false →
            (calculateFaraid 240 rosterSonGrandson).heirs.filter
                (fun sr => sr.heir.id == hSon.id)
              = [mkShare 240 rosterSonGrandson (normalizeOne hSon)]
            ∧ (0 < finalParts rosterSonGrandson (normalizeOne hSon)
                ∨ (mkShare 240 rosterSonGrandson (normalizeOne hSon)).fraction
                    = "Excluded"))) :=
  ⟨⟨by decide, by decide⟩,
    c2_output_membership 240 rosterSonGrandson (by decide) hSon (by decide)⟩

/-- C2 counterexample: Son (id 1) plus Grandson (id 2).  The Grandson is
excluded by the Son, and the returned heirs list has exactly one entry, none
carrying the Grandson id: the excluded heir does not appear in the output at
all, refuting the claim that every input heir appears. -/
theorem c2_counterexample :
    (calculateFaraid 240 rosterSonGrandson).heirs.length = 1
      ∧ ((calculateFaraid 240 rosterSonGrandson).heirs.filter
          (fun sr => sr.heir.id == 2)) = [] :=
  ⟨by decide, by decide⟩

/-! ## Claim C4 -/

theorem contains_of_mem {l : List String} {s : String} (hs : s ∈ l) :
    l.contains s = true := by
  induction l with
  | nil => exact absurd hs (List.not_mem_nil s)
  | cons a l ih =>
    rw [List.contains_cons]
    rcases List.mem_cons.mp hs with rfl | hs'
    · simp
    · rw [ih hs']
      simp

theorem mem_of_contains {l : List String} {s : String} (hc : l.contains s = true) :
    s ∈ l := by
  induction l with
  | nil => exact absurd hc (by simp)
  | cons a l ih =>
    rw [List.contains_cons, Bool.or_eq_true] at hc
    rcases hc with h1 | h1
    · exact (eq_of_beq h1) ▸ List.mem_cons_self a l
    · exact List.mem_cons_of_mem a (ih h1)

theorem unhandled_ne {r : String} (hu : unhandledRel r = true) :
    ∀ s ∈ handledRels, r ≠ s := by
  intro s hs heq
  rw [unhandledRel] at hu
  simp only [Bool.and_eq_true, Bool.not_eq_true'] at hu
  subst heq
  rw [contains_of_mem hs] at hu
  exact Bool.noConfusion hu.1.1.1

theorem unhandled_parts {r : String} (hu : unhandledRel r = true) :
    handledRels.contains r = false ∧ strIncludes r "Distant" = false
      ∧ strIncludes r "Brother" = false ∧ strIncludes r "Sister" = false := by
  rw [unhandledRel] at hu
  simp only [Bool.and_eq_true, Bool.not_eq_true'] at hu
  exact ⟨hu.1.1.1, hu.1.1.2, hu.1.2, hu.2⟩

theorem not_contains_of_unhandled {l : List String} (hsub : ∀ x ∈ l, x ∈ handledRels)
    {r : String} (hu : unhandledRel r = true) : l.contains r = false := by
  cases hc : l.contains r
  · rfl
  · exact absurd rfl (unhandled_ne hu r (hsub r (mem_of_contains hc)))

theorem beq_false_of_unhandled {r s : String} (hu : unhandledRel r = true)
    (hs : s ∈ handledRels) : (r == s) = false :=
  beq_eq_false_iff_ne.mpr (unhandled_ne hu s hs)

theorem excludedB_unhandled {hs : List Heir} {h : Heir}
    (hu : unhandledRel h.relationship = true) :
    excludedB hs h = false := by
  obtain ⟨_, hdist, _, _⟩ := unhandled_parts hu
  have hae : alwaysExcluded.contains h.relationship = false :=
    not_contains_of_unhandled (by decide) hu
  have hdk : distantKindred.contains h.relationship = false :=
    not_contains_of_unhandled (by decide) hu
  have hsib : siblingRels.contains h.relationship = false :=
    not_contains_of_unhandled (by decide) hu
  rw [excludedB, if_neg (by rw [hae]; simp), if_neg (by rw [hdk, hdist]; simp)]
  rw [beq_false_of_unhandled hu (by decide), beq_false_of_unhandled hu (by decide),
    beq_false_of_unhandled hu (by decide), hsib,
    beq_false_of_unhandled hu (by decide), beq_false_of_unhandled hu (by decide),
    beq_false_of_unhandled hu (by decide), beq_false_of_unhandled hu (by decide),
    beq_false_of_unhandled hu (by decide), beq_false_of_unhandled hu (by decide)]
  simp

theorem heirNotes_unhandled {hs : List Heir} {h : Heir}
    (hu : unhandledRel h.relationship = true) :
    heirNotes hs h = [] := by
  obtain ⟨_, hdist, _, _⟩ := unhandled_parts hu
  have hae : alwaysExcluded.contains h.relationship = false :=
    not_contains_of_unhandled (by decide) hu
  have hdk : distantKindred.contains h.relationship = false :=
    not_contains_of_unhandled (by decide) hu
  have hsib : siblingRels.contains h.relationship = false :=
    not_contains_of_unhandled (by decide) hu
  rw [heirNotes, if_neg (by rw [hae]; simp), if_neg (by rw [hdk, hdist]; simp)]
  rw [beq_false_of_unhandled hu (by decide), beq_false_of_unhandled hu (by decide),
    beq_false_of_unhandled hu (by decide), hsib,
    beq_false_of_unhandled hu (by decide), beq_false_of_unhandled hu (by decide),
    beq_false_of_unhandled hu (by decide), beq_false_of_unhandled hu (by decide),
    beq_false_of_unhandled hu (by decide), beq_false_of_unhandled hu (by decide)]
  simp

theorem fixedShare_unhandled {hs : List Heir} {h : Heir}
    (hu : unhandledRel h.relationship = true) :
    fixedShare hs h = (0, "") := by
  obtain ⟨_, _, _, hsis⟩ := unhandled_parts hu
  simp only [fixedShare]
  rw [if_neg (unhandled_ne hu _ (by decide)), if_neg (unhandled_ne hu _ (by decide)),
    if_neg (unhandled_ne hu _ (by decide)), if_neg (unhandled_ne hu _ (by decide)),
    if_neg (unhandled_ne hu _ (by decide)), if_neg (unhandled_ne hu _ (by decide)),
    if_neg (unhandled_ne hu _ (by decide)), if_neg (unhandled_ne hu _ (by decide)),
    if_neg (by intro hand; rw [hsis] at hand; exact Bool.noConfusion hand.1),
    if_neg (by
      rintro (h1 | h1)
      · exact unhandled_ne hu _ (by decide) h1
      · exact unhandled_ne hu _ (by decide) h1)]

theorem not_inGroup_unhandled {heirs : List Heir} {h : Heir}
    (hnd : (heirs.map Heir.id).Nodup) (hact : h ∈ activeHeirs heirs)
    (hu : unhandledRel h.relationship = true) :
    inGroup heirs h = false := by
  cases hi : inGroup heirs h
  · rfl
  · exfalso
    rw [inGroup] at hi
    rcases List.any_eq_true.mp hi with ⟨g, hg, hgid⟩
    have hgh : g = h :=
      idInjOn (activeHeirs heirs) (act_ids_nodup hnd) g (group_subset g hg) h hact
        (eq_of_beq hgid)
    have hrel := group_rels g hg
    rw [hgh] at hrel
    simp only [List.mem_cons, List.not_mem_nil, or_false] at hrel
    rcases hrel with hr | hr | hr | hr | hr | hr | hr | hr | hr | hr | hr <;>
      exact unhandled_ne hu _ (by decide) hr

theorem finalParts_unhandled {heirs : List Heir} {h : Heir}
    (hnd : (heirs.map Heir.id).Nodup) (hact : h ∈ activeHeirs heirs)
    (hu : unhandledRel h.relationship = true) :
    finalParts heirs h = 0 := by
  have hfx : fixedPartsOf (normHeirs heirs) h = 0 := by
    rw [fixedPartsOf, fixedShare_unhandled hu]
  have hpa : partsAfterResidue heirs h = 0 := by
    rw [partsAfter_split, hfx, not_inGroup_unhandled hnd hact hu]
    simp
  exact (finalParts_zero_iff heirs h).mpr hpa

/-- C4: corrected.  An unmappable relationship label is indeed handled
permissively and without error — the heir stays in the roster, receives zero
parts and the output fraction label "Excluded" — but the engine records NO
diagnostic note for it: the note-producing branches of source lines 98 to 163
fire only for explicitly listed categories, substring matches and Hajb rules,
none of which an unmappable label triggers; the auditing half of the claim is
false (see counterexample).  Amended and proved: an heir whose normalized
label is unhandled is not excluded, contributes no exclusion note, holds zero
exact parts, and appears in the output with fraction "Excluded", zero parts
and zero amount. -/
theorem c4_unmappable (netEstate : ℚ) (heirs : List Heir)
    (hnd : (heirs.map Heir.id).Nodup) :
    ∀ h0 ∈ heirs, unhandledRel (normalizeOne h0).relationship = true →
      excludedB (normHeirs heirs) (normalizeOne h0) = false
        ∧ heirNotes (normHeirs heirs) (normalizeOne h0) = []
        ∧ finalParts heirs (normalizeOne h0) = 0
        ∧ ∃ sr ∈ (calculateFaraid netEstate heirs).heirs,
            sr.heir = normalizeOne h0 ∧ sr.fraction = "Excluded"
              ∧ sr.parts = 0 ∧ sr.shareAmount = 0 := by
  intro h0 hmem hu
  have hne : heirs ≠ [] := by
    intro he
    rw [he] at hmem
    exact absurd hmem (List.not_mem_nil h0)
  have hmemN : normalizeOne h0 ∈ normHeirs heirs := List.mem_map_of_mem normalizeOne hmem
  have hexc : excludedB (normHeirs heirs) (normalizeOne h0) = false := excludedB_unhandled hu
  have hact : normalizeOne h0 ∈ activeHeirs heirs := mem_act_iff.mpr ⟨hmemN, hexc⟩
  have hfp : finalParts heirs (normalizeOne h0) = 0 := finalParts_unhandled hnd hact hu
  refine ⟨hexc, heirNotes_unhandled hu, hfp, mkShare netEstate heirs (normalizeOne h0), ?_, ?_, ?_, ?_, ?_⟩
  · rw [calc_heirs netEstate hne]
    exact List.mem_map_of_mem (mkShare netEstate heirs) hact
  · exact mkShare_heir netEstate heirs (normalizeOne h0)
  · exact fraction_excluded_of_zero hfp
  · rw [mkShare_parts, hfp]
    decide
  · rw [mkShare_amount, hfp]
    have hq : qdiv 0 (baseNumberOf heirs) = 0 := by
      rw [qdiv_eq, zero_div]
    rw [hq]
    have hm : qmul 0 netEstate = 0 := by
      rw [qmul_eq, zero_mul]
    rw [hm]
    decide

/-- C4 witness: the amended statement at a roster holding one heir with the
unknown label "Cousin". -/
theorem c4_witness :
    ((rosterCousin.map Heir.id).Nodup ∧ hCousin ∈ rosterCousin
        ∧ unhandledRel (normalizeOne hCousin).relationship = true)
      ∧ (excludedB (normHeirs rosterCousin) (normalizeOne hCousin) = false
        ∧ heirNotes (normHeirs rosterCousin) (normalizeOne hCousin) = []
        ∧ finalParts rosterCousin (normalizeOne hCousin) = 0
        ∧ ∃ sr ∈ (calculateFaraid 100 rosterCousin).heirs,
            sr.heir = normalizeOne hCousin ∧ sr.fraction = "Excluded"
              ∧ sr.parts = 0 ∧ sr.shareAmount = 0) :=
  ⟨⟨by decide, by decide, by decide⟩,
    c4_unmappable 100 rosterCousin (by decide) hCousin (by decide) (by decide)⟩

/-- C4 counterexample: a roster with the single unmappable label "Cousin":
the heir is output with fraction "Excluded" and zero parts, but the notes
list is empty — no diagnostic note flags the unmapped input, refuting the
auditing half of the claim. -/
theorem c4_counterexample :
    (calculateFaraid 100 rosterCousin).notes = []
      ∧ ((calculateFaraid 100 rosterCousin).heirs.map
          (fun sr => (sr.fraction, sr.parts))) = [("Excluded", 0)] :=
  ⟨by decide, by decide⟩

/-! ## Claim C10 -/

theorem fixedParts_grandson_zero {hs : List Heir} {h : Heir}
    (hr : h.relationship = "Grandson") : fixedPartsOf hs h = 0 := by
  rw [fixedPartsOf]
  simp only [fixedShare, hr]
  rw [if_neg (by decide), if_neg (by decide), if_neg (by decide), if_neg (by decide),
    if_neg (by decide), if_neg (by decide), if_neg (by decide), if_neg (by decide),
    if_neg (by decide), if_neg (by decide)]

theorem fixedParts_granddaughter_zero {hs : List Heir} {h : Heir}
    (hr : h.relationship = "Granddaughter") (hgs : relExists hs "Grandson" = true) :
    fixedPartsOf hs h = 0 := by
  rw [fixedPartsOf]
  simp only [fixedShare, hr]
  rw [if_neg (by decide), if_neg (by decide), if_neg (by decide), if_neg (by decide),
    if_neg (by decide), if_pos trivial]
  simp only [granddaughterShare]
  rw [if_neg (by simp [hgs])]

theorem granddaughter_not_excluded {hs : List Heir} {h : Heir}
    (hr : h.relationship = "Granddaughter") (hgs : relExists hs "Grandson" = true)
    (hns : hasSon hs = false) : excludedB hs h = false := by
  have hsib : siblingRels.contains "Granddaughter" = false := by decide
  rw [excludedB, hr]
  rw [if_neg (by decide), if_neg (by decide)]
  simp [hns, hgs, hsib]
  intro hmem
  exact absurd hmem (by decide)

theorem resWeight_grandson {g : Heir} (hr : g.relationship = "Grandson") :
    resWeight g = 2 := by
  rw [resWeight, hr,
    if_pos (by rw [(by decide : maleTypes.contains "Grandson" = true)]; simp)]

theorem resWeight_granddaughter {g : Heir} (hr : g.relationship = "Granddaughter") :
    resWeight g = if g.gender = some "Male" then 2 else 1 := by
  rw [resWeight, hr, (by decide : maleTypes.contains "Granddaughter" = false)]
  simp only [Bool.false_or]
  cases hgen : (g.gender == some "Male")
  · rw [if_neg (by simp), if_neg (fun he => by rw [he] at hgen; simp at hgen)]
  · rw [if_pos rfl, if_pos (eq_of_beq hgen)]

/-- C10: corrected.  With a Grandson present and no Son, no Granddaughter is
ever excluded (however many Daughters exist), Granddaughters receive no fixed
share, and they join the Grandson residuary group.  But the residue weights
are not literally 2 per Grandson and 1 per Granddaughter: source line 305
also grants weight 2 to any member whose `gender` field is "Male", so a
Granddaughter recorded with gender "Male" weighs 2 (see counterexample).
Amended and proved: weight 2 per Grandson; weight 1 per Granddaughter unless
her gender field is "Male", in which case 2; each group member receives
exactly `weight / totalWeight * residue` when the residue is positive. -/
theorem c10_grandson_group (heirs : List Heir)
    (hgs : relExists (normHeirs heirs) "Grandson" = true)
    (hns : hasSon (normHeirs heirs) = false) :
    (∀ h ∈ normHeirs heirs, h.relationship = "Granddaughter" →
        excludedB (normHeirs heirs) h = false ∧ fixedPartsOf (normHeirs heirs) h = 0)
      ∧ residuaryGroup heirs
          = (activeHeirs heirs).filter (fun h => h.relationship == "Grandson")
            ++ (activeHeirs heirs).filter (fun h => h.relationship == "Granddaughter")
      ∧ (0 < residueOf heirs →
          ∀ g ∈ residuaryGroup heirs,
            partsAfterResidue heirs g
                = resWeight g / totalWeightOf heirs * residueOf heirs
              ∧ (g.relationship = "Grandson" → resWeight g = 2)
              ∧ (g.relationship = "Granddaughter" →
                  resWeight g = if g.gender = some "Male" then 2 else 1)) := by
  have hgeq : residuaryGroup heirs
      = (activeHeirs heirs).filter (fun h => h.relationship == "Grandson")
        ++ (activeHeirs heirs).filter (fun h => h.relationship == "Granddaughter") := by
    simp only [residuaryGroup]
    rw [if_neg (by simp [hns]), if_pos hgs]
  refine ⟨?_, hgeq, ?_⟩
  · intro h _ hrel
    exact ⟨granddaughter_not_excluded hrel hgs hns,
      fixedParts_granddaughter_zero hrel hgs⟩
  · intro hres g hg
    have hne : residuaryGroup heirs ≠ [] := by
      intro h0
      rw [h0] at hg
      exact absurd hg (List.not_mem_nil g)
    have hdist : distApplies heirs = true := distApplies_iff.mpr ⟨hres, hne⟩
    have hinG : inGroup heirs g = true := by
      rw [inGroup]
      exact List.any_eq_true.mpr ⟨g, hg, beq_self_eq_true g.id⟩
    have hrelg : g.relationship = "Grandson" ∨ g.relationship = "Granddaughter" := by
      rw [hgeq] at hg
      rcases List.mem_append.mp hg with h1 | h1
      · exact Or.inl (eq_of_beq (List.mem_filter.mp h1).2)
      · exact Or.inr (eq_of_beq (List.mem_filter.mp h1).2)
    have hfx : fixedPartsOf (normHeirs heirs) g = 0 := by
      rcases hrelg with hr | hr
      · exact fixedParts_grandson_zero hr
      · exact fixedParts_granddaughter_zero hr hgs
    refine ⟨?_, fun hr => resWeight_grandson hr, fun hr => resWeight_granddaughter hr⟩
    rw [partsAfter_split, hfx, hdist, hinG]
    simp

/-- C10 counterexample: a Grandson plus a Granddaughter recorded with gender
"Male".  The claim predicts weights 2 and 1 (total 3), hence 8 of the 24
residue parts for the Granddaughter; the code gives her weight 2 (total 4)
and 12 parts. -/
theorem c10_counterexample :
    partsAfterResidue rosterC10cex (normalizeOne hGdMale) = 12
      ∧ residueOf rosterC10cex = 24
      ∧ totalWeightOf rosterC10cex = 4
      ∧ resWeight (normalizeOne hGdMale) = 2
      ∧ ¬(partsAfterResidue rosterC10cex (normalizeOne hGdMale) = 8) :=
  ⟨by decide, by decide, by decide, by decide, by decide⟩

/-- C10 witness: the amended statement at the roster Grandson plus one
Granddaughter with no gender field. -/
theorem c10_witness :
    (relExists (normHeirs rosterC10w) "Grandson" = true
        ∧ hasSon (normHeirs rosterC10w) = false)
      ∧ ((∀ h ∈ normHeirs rosterC10w, h.relationship = "Granddaughter" →
            excludedB (normHeirs rosterC10w) h = false
              ∧ fixedPartsOf (normHeirs rosterC10w) h = 0)
        ∧ residuaryGroup rosterC10w
            = (activeHeirs rosterC10w).filter (fun h => h.relationship == "Grandson")
              ++ (activeHeirs rosterC10w).filter (fun h => h.relationship == "Granddaughter")
        ∧ (0 < residueOf rosterC10w →
            ∀ g ∈ residuaryGroup rosterC10w,
              partsAfterResidue rosterC10w g
                  = resWeight g / totalWeightOf rosterC10w * residueOf rosterC10w
                ∧ (g.relationship = "Grandson" → resWeight g = 2)
                ∧ (g.relationship = "Granddaughter" →
                    resWeight g = if g.gender = some "Male" then 2 else 1))) :=
  ⟨⟨by decide, by decide⟩,
    c10_grandson_group rosterC10w (by decide) (by decide)⟩

end Faraid
